import Mathlib

/-!
Verification of the YARV-MJIT method JIT engine (k0kubun/yarv-mjit).

The development shallowly embeds the two core C files:

* `mjit_compile.c` — the bytecode-to-C translator (`mjit_compile`,
  `compile_insns`, `compile_insn`, `compile_cancel_handler`);
* `mjit.c` — the engine: the unit queue (`add_to_unit_queue`,
  `remove_from_unit_queue`, `get_from_unit_queue`), the GC/JIT flag
  protocol (`mjit_gc_start_hook`, `mjit_gc_finish_hook`,
  `convert_unit_to_func`), the worker loop (`worker`, `mjit_finish`)
  and the shared-object loader (`load_func_from_so`).

C `unsigned int` arithmetic on the simulated stack size is modelled
exactly, as natural numbers reduced modulo 2^32.  The emitted C text is
modelled as a list of structured statements (`CStmt`); a statement that
the proofs never inspect is kept as a single constructor carrying the
data the corresponding `fprintf` would print (the instruction together
with the stack indices involved).
-/

/-- 2^32, the modulus of C `unsigned int` arithmetic. -/
def W32 : Nat := 4294967296

/-- Truncation to `unsigned int`, i.e. `(unsigned int)x` on a 64-bit value. -/
def u32 (n : Nat) : Nat := n % W32

/-- `unsigned int` addition. -/
def wadd (a b : Nat) : Nat := (a + b) % W32

/-- `unsigned int` subtraction (wraps below zero, like `--stack_size` at 0). -/
def wsub (a b : Nat) : Nat := (a + (W32 - b % W32)) % W32

/-- Call-info data the translator reads from a `CALL_INFO` operand:
`ci->orig_argc` and the `VM_CALL_ARGS_BLOCKARG` flag bit. -/
structure CallInfo where
  origArgc : Nat
  blockarg : Bool
deriving DecidableEq

/-- The decoded YARV instructions handled by the `switch` of `compile_insn`
in `mjit_compile.c`, one constructor per `case` label, in source order,
carrying the operand data the translator reads.  Instructions that reach
the `default:` arm (e.g. `getblockparamproxy`, `defineclass`,
`opt_call_c_function`) are the `unsupported` constructor, carrying the
opcode and its `insn_len`. -/
inductive Insn where
  | nop
  | getlocal (idx lvl : Nat)
  | setlocal (idx lvl : Nat)
  | getspecial (key type : Nat)
  | setspecial (key : Nat)
  | getinstancevariable (id ic : Nat)
  | setinstancevariable (id ic : Nat)
  | getclassvariable (id : Nat)
  | setclassvariable (id : Nat)
  | getconstant (id : Nat)
  | setconstant (id : Nat)
  | getglobal (entry : Nat)
  | setglobal (entry : Nat)
  | putnil
  | putself
  | putobject (v : Nat)
  | putspecialobject (v : Nat)
  | putiseq (v : Nat)
  | putstring (v : Nat)
  | concatstrings (n : Nat)
  | tostring
  | freezestring (v : Nat)
  | toregexp (opt cnt : Nat)
  | intern
  | newarray (n : Nat)
  | duparray (v : Nat)
  | expandarray (num flag : Nat)
  | concatarray
  | splatarray (flag : Nat)
  | newhash (n : Nat)
  | newrange (flag : Nat)
  | pop
  | dup
  | dupn (n : Nat)
  | swap
  | reverse (n : Nat)
  | reput
  | topn (n : Nat)
  | setn (n : Nat)
  | adjuststack (n : Nat)
  | defined (op obj needstr : Nat)
  | checkmatch (flag : Nat)
  | checkkeyword (bits idx : Nat)
  | trace2 (flag val : Nat)
  | send (ci : CallInfo)
  | opt_str_freeze (v : Nat)
  | opt_str_uminus (v : Nat)
  | opt_newarray_max (n : Nat)
  | opt_newarray_min (n : Nat)
  | opt_send_without_block (ci : CallInfo)
  | invokesuper (ci : CallInfo)
  | invokeblock (ci : CallInfo)
  | leave
  | throw (state : Nat)
  | jump (off : Nat)
  | branchif (off : Nat)
  | branchunless (off : Nat)
  | branchnil (off : Nat)
  | branchiftype (type off : Nat)
  | getinlinecache (off ic : Nat)
  | setinlinecache (ic : Nat)
  | opt_case_dispatch (entries : List Nat) (elseOff : Nat)
  | opt_plus
  | opt_minus
  | opt_mult
  | opt_div
  | opt_mod
  | opt_eq
  | opt_neq
  | opt_lt
  | opt_le
  | opt_gt
  | opt_ge
  | opt_ltlt
  | opt_aref
  | opt_aset
  | opt_aset_with (key : Nat)
  | opt_aref_with (key : Nat)
  | opt_length
  | opt_size
  | opt_empty_p
  | opt_succ
  | opt_not
  | opt_regexpmatch1 (v : Nat)
  | opt_regexpmatch2
  | bitblt
  | answer
  | getlocal_WC0 (idx : Nat)
  | getlocal_WC1 (idx : Nat)
  | setlocal_WC0 (idx : Nat)
  | setlocal_WC1 (idx : Nat)
  | putobject_INT2FIX_0
  | putobject_INT2FIX_1
  | unsupported (op len : Nat)

/-- `insn_len(insn)` from `insns_info.inc` (1 + number of operands), the
amount by which the position advances to the next instruction. -/
def insnLen : Insn → Nat
  | .nop => 1
  | .getlocal _ _ => 3
  | .setlocal _ _ => 3
  | .getspecial _ _ => 3
  | .setspecial _ => 2
  | .getinstancevariable _ _ => 3
  | .setinstancevariable _ _ => 3
  | .getclassvariable _ => 2
  | .setclassvariable _ => 2
  | .getconstant _ => 2
  | .setconstant _ => 2
  | .getglobal _ => 2
  | .setglobal _ => 2
  | .putnil => 1
  | .putself => 1
  | .putobject _ => 2
  | .putspecialobject _ => 2
  | .putiseq _ => 2
  | .putstring _ => 2
  | .concatstrings _ => 2
  | .tostring => 1
  | .freezestring _ => 2
  | .toregexp _ _ => 3
  | .intern => 1
  | .newarray _ => 2
  | .duparray _ => 2
  | .expandarray _ _ => 3
  | .concatarray => 1
  | .splatarray _ => 2
  | .newhash _ => 2
  | .newrange _ => 2
  | .pop => 1
  | .dup => 1
  | .dupn _ => 2
  | .swap => 1
  | .reverse _ => 2
  | .reput => 1
  | .topn _ => 2
  | .setn _ => 2
  | .adjuststack _ => 2
  | .defined _ _ _ => 4
  | .checkmatch _ => 2
  | .checkkeyword _ _ => 3
  | .trace2 _ _ => 3
  | .send _ => 4
  | .opt_str_freeze _ => 2
  | .opt_str_uminus _ => 2
  | .opt_newarray_max _ => 2
  | .opt_newarray_min _ => 2
  | .opt_send_without_block _ => 3
  | .invokesuper _ => 4
  | .invokeblock _ => 2
  | .leave => 1
  | .throw _ => 2
  | .jump _ => 2
  | .branchif _ => 2
  | .branchunless _ => 2
  | .branchnil _ => 2
  | .branchiftype _ _ => 3
  | .getinlinecache _ _ => 3
  | .setinlinecache _ => 2
  | .opt_case_dispatch _ _ => 3
  | .opt_plus => 3
  | .opt_minus => 3
  | .opt_mult => 3
  | .opt_div => 3
  | .opt_mod => 3
  | .opt_eq => 3
  | .opt_neq => 5
  | .opt_lt => 3
  | .opt_le => 3
  | .opt_gt => 3
  | .opt_ge => 3
  | .opt_ltlt => 3
  | .opt_aref => 3
  | .opt_aset => 3
  | .opt_aset_with _ => 4
  | .opt_aref_with _ => 4
  | .opt_length => 3
  | .opt_size => 3
  | .opt_empty_p => 3
  | .opt_succ => 3
  | .opt_not => 3
  | .opt_regexpmatch1 _ => 2
  | .opt_regexpmatch2 => 3
  | .bitblt => 1
  | .answer => 1
  | .getlocal_WC0 _ => 2
  | .getlocal_WC1 _ => 2
  | .setlocal_WC0 _ => 2
  | .setlocal_WC1 _ => 2
  | .putobject_INT2FIX_0 => 1
  | .putobject_INT2FIX_1 => 1
  | .unsupported _ len => len

/-- Structured model of the C text emitted by the translator.  A
constructor stands for one `fprintf` group of `mjit_compile.c`; straight
line instruction code is kept abstract as `insnCode i ss` (the printed
text is a function of the instruction, its operands and the simulated
stack size at its start). -/
inductive CStmt where
  /-- `VALUE <funcname>(rb_execution_context_t *ec, rb_control_frame_t *cfp) {`. -/
  | funcHeader
  /-- `VALUE stack[<n>];` — the local simulated-stack array. -/
  | stackDecl (n : Nat)
  /-- one `case <off>: goto label_<off>;` arm of the opt-arg prologue. -/
  | optPrologueCase (off : Nat)
  /-- `label_<pos>:` emitted by `compile_insns` before each instruction. -/
  | label (pos : Nat)
  /-- `cfp->pc = (VALUE *)(body->iseq_encoded + <pos>);`. -/
  | setPC (pos : Nat)
  /-- instruction-specific straight-line code, determined by the
  instruction (with operands) and the entry stack size. -/
  | insnCode (i : Insn) (ss : Nat)
  /-- `RUBY_VM_CHECK_INTS(ec);`. -/
  | checkInts
  /-- `goto label_<pos>;`. -/
  | goto (pos : Nat)
  /-- a conditional branch block `if (...) { RUBY_VM_CHECK_INTS(ec); goto label_<target>; }`. -/
  | branchCond (i : Insn) (ss target : Nat)
  /-- the call-cache guard of `compile_send`:
  `if (...) { cfp->sp = cfp->bp + <spOff>; goto cancel; }`. -/
  | sendGuard (spOff : Nat)
  /-- an optimized call of `fprint_opt_call` with its `Qundef` fallback
  `if (result == Qundef) { cfp->sp = cfp->bp + <spOff>; goto cancel; }`. -/
  | optCallStmt (i : Insn) (ss spOff : Nat)
  /-- `vm_pop_frame(ec, cfp, cfp->ep);`. -/
  | popFrame
  /-- `return stack[<idx>];`. -/
  | returnStackTop (idx : Nat)
  /-- the `switch (vm_case_dispatch(...))` block of `opt_case_dispatch`. -/
  | caseDispatch (i : Insn) (ss : Nat) (targets : List Nat)
  /-- `cancel:` — the label of the cancellation handler. -/
  | cancelLabel
  /-- `*((VALUE *)cfp->bp + <bpOff>) = stack[<stackIdx>];`. -/
  | writeBp (bpOff stackIdx : Nat)
  /-- `return Qundef;`. -/
  | returnUndef

/-- The conditions under which `mjit_compile.c` clears `status->success`
(ghost instrumentation: one event is recorded exactly where the C code
assigns `status->success = FALSE`). -/
inductive FailEvent where
  /-- the `default:` arm of the `switch` in `compile_insn`. -/
  | unsupportedInsn (pos op : Nat)
  /-- `branch.stack_size > body->stack_max` after an instruction, in `compile_insns`. -/
  | stackOverflow (pos size : Nat)
  /-- `leave` reached with `b->stack_size != 1`. -/
  | badLeave (pos size : Nat)
deriving DecidableEq

/-- The fields of `struct rb_iseq_constant_body` that `mjit_compile` reads:
size of the encoded stream, `stack_max`, the decoded instruction at each
position (`iseq_encoded` plus the `insns.inc` decode tables), and the
optional-parameter dispatch table. -/
structure IseqBody where
  iseqSize : Nat
  stackMax : Nat
  fetch : Nat → Insn
  hasOpt : Bool
  optTable : List Nat

/-- `struct compile_branch`. -/
structure CompileBranch where
  stackSize : Nat
  finishP : Bool
deriving DecidableEq

/-- `struct compile_status` plus the emitted text and ghost
instrumentation: `events` records each assignment `success = FALSE`,
`steps` records each compiled instruction as (position, stack size after
the instruction), `fuelOut` records exhaustion of the recursion fuel
(provably never set from `mjit_compile`). -/
structure CompileStatus where
  success : Bool
  compiledForPos : List Bool
  out : List CStmt
  events : List FailEvent
  steps : List (Nat × Nat)
  fuelOut : Bool

/-- Classification of an instruction by its control effect in
`compile_insn`: the three conditional branches recurse into
`compile_insns`, `leave` checks the stack size and finishes the branch,
`throw` finishes the branch, `jump` redirects `next_pos`, the `default:`
arm fails, and every other case is straight-line code. -/
inductive StepKind where
  | branchStep (off : Nat)
  | leaveStep
  | throwStep
  | jumpStep (off : Nat)
  | failStep (op len : Nat)
  | plainStep

def classify : Insn → StepKind
  | .branchif off => .branchStep off
  | .branchunless off => .branchStep off
  | .branchnil off => .branchStep off
  | .leave => .leaveStep
  | .throw _ => .throwStep
  | .jump off => .jumpStep off
  | .unsupported op len => .failStep op len
  | _ => .plainStep

/-- Dedup pass of `compile_case_dispatch_each`: an arm is emitted only
when its value differs from the previously emitted one (`last_value`). -/
def caseDispatchTargets (base : Nat) : List Nat → Option Nat → List Nat
  | [], _ => []
  | v :: rest, last =>
    if last = some v then caseDispatchTargets base rest last
    else wadd base v :: caseDispatchTargets base rest (some v)

/-- The emitted code and resulting `stack_size` of every straight-line
(`plainStep`) arm of the `switch` in `compile_insn`, in source order.
`pos` is the instruction position and `ss` the entry `b->stack_size`;
the returned number is `b->stack_size` after the arm, computed with the
C `unsigned int` wrap-around.  Control-flow arms (branch/leave/throw/
jump/default) are handled in `compileInsnCore` and get a dummy entry
here. -/
def insnEffect (i : Insn) (pos ss : Nat) : List CStmt × Nat :=
  match i with
  | .nop => ([], ss)
  | .getlocal _ _ => ([.insnCode i ss], wadd ss 1)
  | .setlocal _ _ => ([.insnCode i ss], wsub ss 1)
  | .getspecial _ _ => ([.insnCode i ss], wadd ss 1)
  | .setspecial _ => ([.insnCode i ss], wsub ss 1)
  | .getinstancevariable _ _ => ([.insnCode i ss], wadd ss 1)
  | .setinstancevariable _ _ => ([.insnCode i ss], wsub ss 1)
  | .getclassvariable _ => ([.insnCode i ss], wadd ss 1)
  | .setclassvariable _ => ([.insnCode i ss], wsub ss 1)
  | .getconstant _ => ([.insnCode i ss], ss)
  | .setconstant _ => ([.insnCode i ss], ss)
  | .getglobal _ => ([.insnCode i ss], wadd ss 1)
  | .setglobal _ => ([.insnCode i ss], wsub ss 1)
  | .putnil => ([.insnCode i ss], wadd ss 1)
  | .putself => ([.insnCode i ss], wadd ss 1)
  | .putobject _ => ([.insnCode i ss], wadd ss 1)
  | .putspecialobject _ => ([.insnCode i ss], wadd ss 1)
  | .putiseq _ => ([.insnCode i ss], wadd ss 1)
  | .putstring _ => ([.insnCode i ss], wadd ss 1)
  | .concatstrings n => ([.insnCode i ss], wadd (wsub ss (u32 n)) 1)
  | .tostring => ([.insnCode i ss], wsub ss 1)
  | .freezestring _ => ([.insnCode i ss], ss)
  | .toregexp _ cnt => ([.insnCode i ss], wadd (wsub ss (u32 cnt)) 1)
  | .intern => ([.insnCode i ss], ss)
  | .newarray n => ([.insnCode i ss], wadd (wsub ss (u32 n)) 1)
  | .duparray _ => ([.insnCode i ss], wadd ss 1)
  | .expandarray num flag => ([.insnCode i ss], wadd (wsub ss 1) (u32 num + flag % 2))
  | .concatarray => ([.insnCode i ss], wsub ss 1)
  | .splatarray _ => ([.insnCode i ss], ss)
  | .newhash n => ([.insnCode i ss], wadd (wsub ss (u32 n)) 1)
  | .newrange _ => ([.insnCode i ss], wsub ss 1)
  | .pop => ([], wsub ss 1)
  | .dup => ([.insnCode i ss], wadd ss 1)
  | .dupn n => ([.insnCode i ss], wadd ss (u32 n))
  | .swap => ([.insnCode i ss], ss)
  | .reverse _ => ([.insnCode i ss], ss)
  | .reput => ([.insnCode i ss], ss)
  | .topn _ => ([.insnCode i ss], wadd ss 1)
  | .setn _ => ([.insnCode i ss], ss)
  | .adjuststack n => ([], wsub ss (u32 n))
  | .defined _ _ _ => ([.insnCode i ss], ss)
  | .checkmatch _ => ([.insnCode i ss], wsub ss 1)
  | .checkkeyword _ _ => ([.insnCode i ss], wadd ss 1)
  | .trace2 _ _ => ([.insnCode i ss], ss)
  | .send ci =>
      let argc := ci.origArgc + (if ci.blockarg then 1 else 0)
      ([.sendGuard (wadd ss 1), .insnCode i ss], wsub ss argc)
  | .opt_str_freeze _ => ([.insnCode i ss], wadd ss 1)
  | .opt_str_uminus _ => ([.insnCode i ss], wadd ss 1)
  | .opt_newarray_max n => ([.insnCode i ss], wadd (wsub ss (u32 n)) 1)
  | .opt_newarray_min n => ([.insnCode i ss], wadd (wsub ss (u32 n)) 1)
  | .opt_send_without_block ci =>
      ([.sendGuard (wadd ss 1), .insnCode i ss], wsub ss ci.origArgc)
  | .invokesuper ci =>
      let push := ci.origArgc + (if ci.blockarg then 1 else 0)
      ([.insnCode i ss], wsub ss push)
  | .invokeblock ci => ([.insnCode i ss], wadd (wsub ss ci.origArgc) 1)
  | .branchiftype _ off =>
      ([.branchCond i ss (wadd (wadd pos 3) (u32 off))], wsub ss 1)
  | .getinlinecache off _ =>
      ([.insnCode i ss, .branchCond i ss (wadd (wadd pos 3) (u32 off))], wadd ss 1)
  | .setinlinecache _ => ([.insnCode i ss], ss)
  | .opt_case_dispatch entries elseOff =>
      let base := wadd pos 3
      ([.caseDispatch i ss (caseDispatchTargets base entries none ++ [wadd base elseOff])],
       wsub ss 1)
  | .opt_plus => ([.optCallStmt i ss (wadd ss 1)], wsub ss 1)
  | .opt_minus => ([.optCallStmt i ss (wadd ss 1)], wsub ss 1)
  | .opt_mult => ([.optCallStmt i ss (wadd ss 1)], wsub ss 1)
  | .opt_div => ([.optCallStmt i ss (wadd ss 1)], wsub ss 1)
  | .opt_mod => ([.optCallStmt i ss (wadd ss 1)], wsub ss 1)
  | .opt_eq => ([.optCallStmt i ss (wadd ss 1)], wsub ss 1)
  | .opt_neq => ([.optCallStmt i ss (wadd ss 1)], wsub ss 1)
  | .opt_lt => ([.optCallStmt i ss (wadd ss 1)], wsub ss 1)
  | .opt_le => ([.optCallStmt i ss (wadd ss 1)], wsub ss 1)
  | .opt_gt => ([.optCallStmt i ss (wadd ss 1)], wsub ss 1)
  | .opt_ge => ([.optCallStmt i ss (wadd ss 1)], wsub ss 1)
  | .opt_ltlt => ([.optCallStmt i ss (wadd ss 1)], wsub ss 1)
  | .opt_aref => ([.optCallStmt i ss (wadd ss 1)], wsub ss 1)
  | .opt_aset => ([.optCallStmt i ss (wadd ss 1)], wsub ss 2)
  | .opt_aset_with _ => ([.optCallStmt i ss (wadd ss 1)], wsub ss 1)
  | .opt_aref_with _ => ([.optCallStmt i ss (wadd ss 1)], ss)
  | .opt_length => ([.optCallStmt i ss (wadd ss 1)], ss)
  | .opt_size => ([.optCallStmt i ss (wadd ss 1)], ss)
  | .opt_empty_p => ([.optCallStmt i ss (wadd ss 1)], ss)
  | .opt_succ => ([.optCallStmt i ss (wadd ss 1)], ss)
  | .opt_not => ([.optCallStmt i ss (wadd ss 1)], ss)
  | .opt_regexpmatch1 _ => ([.insnCode i ss], ss)
  | .opt_regexpmatch2 => ([.optCallStmt i ss (wadd ss 1)], wsub ss 1)
  | .bitblt => ([.insnCode i ss], wadd ss 1)
  | .answer => ([.insnCode i ss], wadd ss 1)
  | .getlocal_WC0 _ => ([.insnCode i ss], wadd ss 1)
  | .getlocal_WC1 _ => ([.insnCode i ss], wadd ss 1)
  | .setlocal_WC0 _ => ([.insnCode i ss], wsub ss 1)
  | .setlocal_WC1 _ => ([.insnCode i ss], wsub ss 1)
  | .putobject_INT2FIX_0 => ([.insnCode i ss], wadd ss 1)
  | .putobject_INT2FIX_1 => ([.insnCode i ss], wadd ss 1)
  | _ => ([], ss)

/-- whether the trailing `goto` clause applies because `insn == YARVINSN_jump`. -/
def isJump : Insn → Bool
  | .jump _ => true
  | _ => false

/-- The trailing clause of `compile_insn`: if `next_pos` is already
compiled (or the instruction was `jump`), emit `goto label_<next_pos>`. -/
def trailingGoto (body : IseqBody) (i : Insn) (next : Nat) (st : CompileStatus) :
    CompileStatus :=
  if (next < body.iseqSize && st.compiledForPos.getD next false) || isJump i then
    {st with out := st.out ++ [.goto next]}
  else st

/-- The `switch` of `compile_insn` followed by its trailing `goto`
clause, parameterized by the recursive entry `recur` into
`compile_insns` (used by the three conditional-branch arms).  `st0` is
the status after the `cfp->pc` write.  Returns the new status, the
updated `compile_branch`, and `next_pos`. -/
def compileInsnBody (recur : Nat → CompileBranch → CompileStatus → CompileStatus)
    (body : IseqBody) (i : Insn) (pos : Nat) (b : CompileBranch) (st0 : CompileStatus) :
    CompileStatus × CompileBranch × Nat :=
  match classify i with
  | .branchStep off =>
      let ss := wsub b.stackSize 1
      let target := wadd (wadd pos (insnLen i)) (u32 off)
      let st1 : CompileStatus := {st0 with out := st0.out ++ [.branchCond i ss target]}
      let st2 := recur (wadd pos (insnLen i)) {stackSize := ss, finishP := false} st1
      (trailingGoto body i target st2, {stackSize := ss, finishP := b.finishP}, target)
  | .leaveStep =>
      let st1 : CompileStatus :=
        if b.stackSize ≠ 1 then
          {st0 with success := false,
                    events := st0.events ++ [.badLeave pos b.stackSize]}
        else st0
      let st2 : CompileStatus :=
        {st1 with out := st1.out ++ [.checkInts, .popFrame,
                                     .returnStackTop (wsub b.stackSize 1)]}
      let next := wadd pos 1
      (trailingGoto body i next st2, {stackSize := b.stackSize, finishP := true}, next)
  | .throwStep =>
      let st1 : CompileStatus :=
        {st0 with out := st0.out ++ [.checkInts, .insnCode i (wsub b.stackSize 1)]}
      let next := wadd pos (insnLen i)
      (trailingGoto body i next st1, {stackSize := wsub b.stackSize 1, finishP := true}, next)
  | .jumpStep off =>
      let next := wadd (wadd pos (insnLen i)) (u32 off)
      let st1 : CompileStatus := {st0 with out := st0.out ++ [.checkInts, .goto next]}
      (trailingGoto body i next st1, b, next)
  | .failStep op _ =>
      let st1 : CompileStatus :=
        {st0 with success := false,
                  events := st0.events ++ [.unsupportedInsn pos op]}
      let next := wadd pos (insnLen i)
      (trailingGoto body i next st1, b, next)
  | .plainStep =>
      let e := insnEffect i pos b.stackSize
      let st1 : CompileStatus := {st0 with out := st0.out ++ e.1}
      let next := wadd pos (insnLen i)
      (trailingGoto body i next st1, {stackSize := e.2, finishP := b.finishP}, next)

/-- The body of `compile_insn`: first the `cfp->pc` write emitted before
the `switch`, then the `switch` and the trailing `goto` clause
(`compileInsnBody`).  `recur` is the recursive entry into
`compile_insns` used by the conditional-branch arms. -/
def compileInsnCore (recur : Nat → CompileBranch → CompileStatus → CompileStatus)
    (body : IseqBody) (i : Insn) (pos : Nat) (b : CompileBranch) (st : CompileStatus) :
    CompileStatus × CompileBranch × Nat :=
  compileInsnBody recur body i pos b {st with out := st.out ++ [.setPC pos]}

/-- The `while` guard of `compile_insns`:
`pos < body->iseq_size && !status->compiled_for_pos[pos] && !branch.finish_p`. -/
def loopGuard (body : IseqBody) (pos : Nat) (b : CompileBranch) (st : CompileStatus) : Bool :=
  decide (pos < body.iseqSize) && !(st.compiledForPos.getD pos false) && !b.finishP

/-- The stack-overflow check of `compile_insns` after each instruction:
`if (status->success && branch.stack_size > body->stack_max) { warn; success = FALSE; }`. -/
def stackOverflowCheck (body : IseqBody) (pos sz : Nat) (st : CompileStatus) : CompileStatus :=
  if st.success && decide (body.stackMax < sz) then
    {st with success := false, events := st.events ++ [.stackOverflow pos sz]}
  else st

/-- `compile_insns`: compile one conditional branch, with explicit fuel
for the recursion (`mjit_compile` supplies enough fuel; `fuelOut`
records the impossible exhaustion).  Each iteration marks the position
in `compiled_for_pos`, emits `label_<pos>`, runs `compile_insn`, records
the ghost step, applies the stack-overflow check, and stops on
failure. -/
def compile_insns (body : IseqBody) : Nat → Nat → CompileBranch → CompileStatus → CompileStatus
  | 0, pos, b, st =>
      if loopGuard body pos b st then {st with fuelOut := true} else st
  | (f+1), pos, b, st =>
      if loopGuard body pos b st then
        let i := body.fetch pos
        let st1 : CompileStatus :=
          {st with compiledForPos := st.compiledForPos.set pos true,
                   out := st.out ++ [.label pos]}
        let r := compileInsnCore (fun p bb s => compile_insns body f p bb s) body i pos b st1
        let st3 : CompileStatus := {r.1 with steps := r.1.steps ++ [(pos, r.2.1.stackSize)]}
        let st4 : CompileStatus := stackOverflowCheck body pos r.2.1.stackSize st3
        if st4.success then compile_insns body f r.2.2 r.2.1 st4 else st4
      else st

/-- `compile_insn` as a standalone function (the instantiation of
`compileInsnCore` used by `compile_insns` at fuel `f+1`). -/
def compile_insn (body : IseqBody) (fuel : Nat) (i : Insn) (pos : Nat)
    (b : CompileBranch) (st : CompileStatus) : CompileStatus × CompileBranch × Nat :=
  compileInsnCore (fun p bb s => compile_insns body fuel p bb s) body i pos b st

/-- `compile_cancel_handler`: the `cancel:` label, one write-back per
slot `i < body->stack_max` to `*((VALUE *)cfp->bp + i + 1)`, then
`return Qundef;`. -/
def compile_cancel_handler (body : IseqBody) : List CStmt :=
  [.cancelLabel] ++ (List.range body.stackMax).map (fun k => .writeBp (k+1) k)
    ++ [.returnUndef]

/-- `mjit_compile`: emit the function header, the stack array when
`stack_max > 0`, the opt-arg prologue, compile from position 0 with
stack size 0, and append the cancellation handler.  The returned
status's `success` field is the C function's return value. -/
def mjit_compile (body : IseqBody) : CompileStatus :=
  let st0 : CompileStatus := {
    success := true,
    compiledForPos := List.replicate body.iseqSize false,
    out := [CStmt.funcHeader]
            ++ (if 0 < body.stackMax then [CStmt.stackDecl body.stackMax] else [])
            ++ (if body.hasOpt then body.optTable.map CStmt.optPrologueCase else []),
    events := [], steps := [], fuelOut := false }
  let st := compile_insns body (2 * body.iseqSize + 1) 0
              {stackSize := 0, finishP := false} st0
  {st with out := st.out ++ compile_cancel_handler body}

/-! ### List bookkeeping lemmas for `compiled_for_pos` -/

/-- Number of unmarked positions in `compiled_for_pos`. -/
def countFalse (l : List Bool) : Nat := l.countP (fun x => !x)

theorem countFalse_replicate (n : Nat) : countFalse (List.replicate n false) = n := by
  induction n with
  | zero => rfl
  | succ m ih => simp [countFalse, List.replicate, List.countP_cons] at ih ⊢; omega

theorem getD_set_self (l : List Bool) (p : Nat) (h : p < l.length) :
    (l.set p true).getD p false = true := by
  induction l generalizing p with
  | nil => simp at h
  | cons a t ih =>
    cases p with
    | zero => rfl
    | succ q => exact ih q (by simpa using h)

theorem getD_set_other (l : List Bool) (p q : Nat) (h : p ≠ q) :
    (l.set p true).getD q false = l.getD q false := by
  induction l generalizing p q with
  | nil => rfl
  | cons a t ih =>
    cases p with
    | zero => cases q with
      | zero => exact absurd rfl h
      | succ m => rfl
    | succ n =>
      cases q with
      | zero => rfl
      | succ m => exact ih n m (by omega)

theorem getD_set_false (l : List Bool) (p q : Nat)
    (h : (l.set p true).getD q false = false) : l.getD q false = false := by
  by_cases hpq : p = q
  · subst hpq
    by_cases hl : p < l.length
    · rw [getD_set_self l p hl] at h; exact absurd h (by simp)
    · have : l.set p true = l := List.set_eq_of_length_le (by omega)
      rwa [this] at h
  · rwa [getD_set_other l p q hpq] at h

theorem countFalse_set_true (l : List Bool) (p : Nat) (h : p < l.length)
    (hf : l.getD p false = false) : countFalse (l.set p true) + 1 = countFalse l := by
  induction l generalizing p with
  | nil => simp at h
  | cons a t ih =>
    cases p with
    | zero =>
      have : a = false := hf
      subst this
      simp [countFalse, List.countP_cons]
    | succ q =>
      have := ih q (by simpa using h) hf
      simp only [List.set, countFalse, List.countP_cons] at this ⊢
      omega

/-! ### Transport invariants of the translator -/

/-- Statements the compile loop may emit: everything except the
`cancel:` label and the stack array declaration. -/
def benign : CStmt → Bool
  | .cancelLabel => false
  | .stackDecl _ => false
  | _ => true

/-- `status->success` is `FALSE` exactly when a failure event has been
recorded. -/
def EventSync (st : CompileStatus) : Prop := st.success = true ↔ st.events = []

/-- Relation between a `compile_status` and its value after a (part of
an) iteration of the compile loop: text and events only grow, the
success flag only falls and stays synchronized with the events,
`compiled_for_pos` keeps its length and only gains marks, the recorded
steps grow by pairwise-distinct positions that were unmarked before and
marked after — one per lost unmarked position — and an overflowing
recorded step forces `success = FALSE`. -/
structure CTrans (body : IseqBody) (st st' : CompileStatus) : Prop where
  out_app : ∃ t, st'.out = st.out ++ t ∧ t.all benign = true
  ev_app : ∃ e, st'.events = st.events ++ e
  sync : EventSync st → EventSync st'
  succ_mono : st.success = false → st'.success = false
  len_eq : st'.compiledForPos.length = st.compiledForPos.length
  marked_mono : ∀ p, st.compiledForPos.getD p false = true →
    st'.compiledForPos.getD p false = true
  steps_app : ∃ n, st'.steps = st.steps ++ n
    ∧ countFalse st'.compiledForPos + n.length = countFalse st.compiledForPos
    ∧ (∀ q ∈ n, st.compiledForPos.getD q.1 false = false
         ∧ st'.compiledForPos.getD q.1 false = true)
    ∧ (n.map Prod.fst).Nodup
  over : (∀ q ∈ st.steps, body.stackMax < q.2 → st.success = false) →
    (∀ q ∈ st'.steps, body.stackMax < q.2 → st'.success = false)

theorem CTrans.here (body : IseqBody) (st : CompileStatus) : CTrans body st st := by
  refine ⟨⟨[], by simp⟩, ⟨[], by simp⟩, id, id, Eq.refl _, fun p h => h,
    ⟨[], by simp⟩, id⟩

theorem CTrans.andThen {body : IseqBody} {a b c : CompileStatus}
    (h1 : CTrans body a b) (h2 : CTrans body b c) : CTrans body a c := by
  obtain ⟨t1, ht1, hb1⟩ := h1.out_app
  obtain ⟨t2, ht2, hb2⟩ := h2.out_app
  obtain ⟨e1, he1⟩ := h1.ev_app
  obtain ⟨e2, he2⟩ := h2.ev_app
  obtain ⟨n1, hn1, hc1, hm1, hd1⟩ := h1.steps_app
  obtain ⟨n2, hn2, hc2, hm2, hd2⟩ := h2.steps_app
  refine ⟨⟨t1 ++ t2, by simp [ht2, ht1, hb1, hb2]⟩,
          ⟨e1 ++ e2, by simp [he2, he1]⟩,
          fun h => h2.sync (h1.sync h),
          fun h => h2.succ_mono (h1.succ_mono h),
          h2.len_eq.trans h1.len_eq,
          fun p hp => h2.marked_mono p (h1.marked_mono p hp),
          ?_, fun h => h2.over (h1.over h)⟩
  refine ⟨n1 ++ n2, by simp [hn2, hn1], by simp; omega, ?_, ?_⟩
  · intro q hq
    rcases List.mem_append.1 hq with hq1 | hq2
    · exact ⟨(hm1 q hq1).1, h2.marked_mono _ (hm1 q hq1).2⟩
    · refine ⟨?_, (hm2 q hq2).2⟩
      rcases Bool.eq_false_or_eq_true (a.compiledForPos.getD q.1 false) with h | h
      · have hb := (hm2 q hq2).1
        rw [h1.marked_mono _ h] at hb
        simp at hb
      · exact h
  · rw [List.map_append]
    refine List.Nodup.append hd1 hd2 ?_
    intro x hx1 hx2
    obtain ⟨q1, hq1, hxq1⟩ := List.mem_map.1 hx1
    obtain ⟨q2, hq2, hxq2⟩ := List.mem_map.1 hx2
    have hmarked : b.compiledForPos.getD x false = true := by
      rw [← hxq1]; exact (hm1 q1 hq1).2
    have hunmarked : b.compiledForPos.getD x false = false := by
      rw [← hxq2]; exact (hm2 q2 hq2).1
    rw [hmarked] at hunmarked
    simp at hunmarked

theorem getD_set_mono (l : List Bool) (p q : Nat)
    (h : l.getD q false = true) : (l.set p true).getD q false = true := by
  by_cases hpq : p = q
  · subst hpq
    by_cases hl : p < l.length
    · exact getD_set_self l p hl
    · rwa [List.set_eq_of_length_le (by omega)]
  · rwa [getD_set_other l p q hpq]

theorem CTrans.emit (body : IseqBody) (st : CompileStatus) (l : List CStmt)
    (hb : l.all benign = true) : CTrans body st {st with out := st.out ++ l} := by
  refine ⟨⟨l, Eq.refl _, hb⟩, ⟨[], by simp⟩, fun h => h, fun h => h, Eq.refl _,
    fun p h => h, ⟨[], by simp⟩, fun h => h⟩

theorem CTrans.fail (body : IseqBody) (st : CompileStatus) (e : FailEvent) :
    CTrans body st {st with success := false, events := st.events ++ [e]} := by
  refine ⟨⟨[], by simp⟩, ⟨[e], Eq.refl _⟩, ?_, fun _ => Eq.refl _, Eq.refl _,
    fun p h => h, ⟨[], by simp⟩, ?_⟩
  · intro _; constructor
    · intro h; exact absurd h (by simp)
    · intro h; exact absurd h (by simp)
  · intro _ q _ _; exact Eq.refl _

theorem trailingGoto_trans (body : IseqBody) (i : Insn) (next : Nat)
    (st : CompileStatus) : CTrans body st (trailingGoto body i next st) := by
  unfold trailingGoto
  split
  · exact CTrans.emit body st [.goto next] (by simp [benign])
  · exact CTrans.here body st

theorem insnEffect_benign (i : Insn) (pos ss : Nat) :
    ((insnEffect i pos ss).1).all benign = true := by
  cases i <;> rfl

theorem compileInsnBody_trans (body : IseqBody)
    (recur : Nat → CompileBranch → CompileStatus → CompileStatus)
    (hrec : ∀ p bb s, s.compiledForPos.length = body.iseqSize →
      CTrans body s (recur p bb s))
    (i : Insn) (pos : Nat) (b : CompileBranch) (st0 : CompileStatus)
    (hlen : st0.compiledForPos.length = body.iseqSize) :
    CTrans body st0 (compileInsnBody recur body i pos b st0).1 := by
  unfold compileInsnBody
  rcases hcl : classify i with off | _ | _ | off | ⟨op, len⟩ | _ <;> dsimp only
  · refine ((CTrans.emit body _ _ (by simp [benign])).andThen
      ((hrec _ _ _ ?_).andThen (trailingGoto_trans body _ _ _)))
    exact hlen
  · split
    · exact ((CTrans.fail body _ _).andThen
        ((CTrans.emit body _ _ (by simp [benign])).andThen (trailingGoto_trans body _ _ _)))
    · exact ((CTrans.emit body _ _ (by simp [benign])).andThen
        (trailingGoto_trans body _ _ _))
  · exact ((CTrans.emit body _ _ (by simp [benign])).andThen
      (trailingGoto_trans body _ _ _))
  · exact ((CTrans.emit body _ _ (by simp [benign])).andThen
      (trailingGoto_trans body _ _ _))
  · exact ((CTrans.fail body _ _).andThen (trailingGoto_trans body _ _ _))
  · exact ((CTrans.emit body _ _ (insnEffect_benign i pos b.stackSize)).andThen
      (trailingGoto_trans body _ _ _))

theorem compileInsnCore_trans (body : IseqBody)
    (recur : Nat → CompileBranch → CompileStatus → CompileStatus)
    (hrec : ∀ p bb s, s.compiledForPos.length = body.iseqSize →
      CTrans body s (recur p bb s))
    (i : Insn) (pos : Nat) (b : CompileBranch) (st : CompileStatus)
    (hlen : st.compiledForPos.length = body.iseqSize) :
    CTrans body st (compileInsnCore recur body i pos b st).1 := by
  unfold compileInsnCore
  exact (CTrans.emit body st _ (by simp [benign])).andThen
    (compileInsnBody_trans body recur hrec i pos b _ hlen)

theorem socheck_out (body : IseqBody) (pos sz : Nat) (st : CompileStatus) :
    (stackOverflowCheck body pos sz st).out = st.out := by
  unfold stackOverflowCheck; split <;> rfl

theorem socheck_compiled (body : IseqBody) (pos sz : Nat) (st : CompileStatus) :
    (stackOverflowCheck body pos sz st).compiledForPos = st.compiledForPos := by
  unfold stackOverflowCheck; split <;> rfl

theorem socheck_steps (body : IseqBody) (pos sz : Nat) (st : CompileStatus) :
    (stackOverflowCheck body pos sz st).steps = st.steps := by
  unfold stackOverflowCheck; split <;> rfl

theorem socheck_fuelOut (body : IseqBody) (pos sz : Nat) (st : CompileStatus) :
    (stackOverflowCheck body pos sz st).fuelOut = st.fuelOut := by
  unfold stackOverflowCheck; split <;> rfl

theorem socheck_events (body : IseqBody) (pos sz : Nat) (st : CompileStatus) :
    ∃ e, (stackOverflowCheck body pos sz st).events = st.events ++ e := by
  unfold stackOverflowCheck; split
  · exact ⟨[FailEvent.stackOverflow pos sz], rfl⟩
  · exact ⟨[], by simp⟩

theorem socheck_succ_mono (body : IseqBody) (pos sz : Nat) (st : CompileStatus)
    (h : st.success = false) : (stackOverflowCheck body pos sz st).success = false := by
  unfold stackOverflowCheck; split <;> simp [h]

theorem socheck_sync (body : IseqBody) (pos sz : Nat) (st : CompileStatus)
    (h : EventSync st) : EventSync (stackOverflowCheck body pos sz st) := by
  unfold stackOverflowCheck; split
  · constructor
    · intro hc; exact absurd hc (by simp)
    · intro hc; exact absurd hc (by simp)
  · exact h

theorem socheck_over (body : IseqBody) (pos sz : Nat) (st : CompileStatus)
    (h : body.stackMax < sz) : (stackOverflowCheck body pos sz st).success = false := by
  unfold stackOverflowCheck
  split
  · rfl
  · rename_i hcond
    rcases Bool.eq_false_or_eq_true st.success with hs | hs
    · exact absurd (by simp [hs, h]) hcond
    · exact hs

/-- One full iteration of the `while` loop of `compile_insns` (mark the
position, emit the label, run `compile_insn`, record the ghost step,
apply the overflow check) is a `CTrans`. -/
theorem compile_iteration_trans (body : IseqBody) (pos sz : Nat)
    (st st1 st2 : CompileStatus)
    (hpos : pos < body.iseqSize)
    (hunm : st.compiledForPos.getD pos false = false)
    (hlen : st.compiledForPos.length = body.iseqSize)
    (hst1 : st1 = {st with
      compiledForPos := st.compiledForPos.set pos true,
      out := st.out ++ [CStmt.label pos]})
    (K : CTrans body st1 st2) :
    CTrans body st (stackOverflowCheck body pos sz
      {st2 with steps := st2.steps ++ [(pos, sz)]}) := by
  subst hst1
  have hplen : pos < st.compiledForPos.length := by omega
  obtain ⟨t, ht, hbt⟩ := K.out_app
  obtain ⟨eK, heK⟩ := K.ev_app
  obtain ⟨nK, hnK, hcK, hmK, hdK⟩ := K.steps_app
  obtain ⟨e2, he2⟩ := socheck_events body pos sz {st2 with steps := st2.steps ++ [(pos, sz)]}
  have hmark2 : st2.compiledForPos.getD pos false = true :=
    K.marked_mono pos (getD_set_self _ _ hplen)
  refine ⟨?_, ?_, ?_, ?_, ?_, ?_, ?_, ?_⟩
  · refine ⟨[CStmt.label pos] ++ t, ?_, ?_⟩
    · rw [socheck_out]
      simp only []
      rw [ht]
      simp
    · simp [hbt, benign]
  · exact ⟨eK ++ e2, by rw [he2]; simp [heK]⟩
  · intro h
    exact socheck_sync body pos sz _ (K.sync h)
  · intro h
    exact socheck_succ_mono body pos sz _ (K.succ_mono h)
  · rw [socheck_compiled]
    simp only []
    rw [K.len_eq]
    simp
  · intro p hp
    rw [socheck_compiled]
    exact K.marked_mono p (getD_set_mono _ _ _ hp)
  · refine ⟨nK ++ [(pos, sz)], ?_, ?_, ?_, ?_⟩
    · rw [socheck_steps]
      simp only []
      rw [hnK]
      simp
    · have hcK2 : countFalse st2.compiledForPos + nK.length
          = countFalse (st.compiledForPos.set pos true) := hcK
      have hset : countFalse (st.compiledForPos.set pos true) + 1
          = countFalse st.compiledForPos := countFalse_set_true _ _ hplen hunm
      rw [socheck_compiled]
      have hproj : ({st2 with steps := st2.steps ++ [(pos, sz)]} :
          CompileStatus).compiledForPos = st2.compiledForPos := rfl
      rw [hproj]
      have hlen2 : (nK ++ [(pos, sz)]).length = nK.length + 1 := by simp
      rw [hlen2]
      omega
    · intro q hq
      rw [socheck_compiled]
      simp only []
      rcases List.mem_append.1 hq with hq1 | hq2
      · have := hmK q hq1
        exact ⟨getD_set_false _ _ _ this.1, this.2⟩
      · have : q = (pos, sz) := by simpa using hq2
        subst this
        exact ⟨hunm, hmark2⟩
    · rw [List.map_append]
      refine List.Nodup.append hdK (by simp) ?_
      intro x hx1 hx2
      obtain ⟨q, hq, hxq⟩ := List.mem_map.1 hx1
      have hxpos : x = pos := by simpa using hx2
      subst hxpos
      have := (hmK q hq).1
      rw [hxq] at this
      rw [getD_set_self _ _ hplen] at this
      simp at this
  · intro H q hq hover
    rw [socheck_steps] at hq
    simp only [] at hq
    rw [hnK] at hq
    rcases List.mem_append.1 hq with hq' | hqnew
    · rcases List.mem_append.1 hq' with hqold | hqK
      · have hfail : st.success = false := H q hqold hover
        exact socheck_succ_mono body pos sz _ (K.succ_mono hfail)
      · have := K.over H q (by rw [hnK]; exact List.mem_append_right _ hqK) hover
        exact socheck_succ_mono body pos sz _ this
    · have : q = (pos, sz) := by simpa using hqnew
      subst this
      exact socheck_over body pos sz _ hover

/-- `compile_insns` is a `CTrans`: the compile loop only appends benign
text and events, keeps `success` synchronized with the recorded
failures, marks one fresh position per recorded step, and fails whenever
a step overflowed the stack bound. -/
theorem compile_insns_trans (body : IseqBody) :
    ∀ (f pos : Nat) (b : CompileBranch) (st : CompileStatus),
      st.compiledForPos.length = body.iseqSize →
      CTrans body st (compile_insns body f pos b st) := by
  intro f
  induction f with
  | zero =>
    intro pos b st _
    unfold compile_insns
    split
    · exact ⟨⟨[], by simp⟩, ⟨[], by simp⟩, fun h => h, fun h => h, Eq.refl _,
        fun p h => h, ⟨[], by simp⟩, fun h => h⟩
    · exact CTrans.here body st
  | succ f ih =>
    intro pos b st hlen
    unfold compile_insns
    by_cases hg : loopGuard body pos b st = true
    · rw [if_pos hg]
      have hguard := hg
      unfold loopGuard at hguard
      simp only [Bool.and_eq_true, decide_eq_true_eq, Bool.not_eq_true'] at hguard
      obtain ⟨⟨hpos, hunm⟩, _⟩ := hguard
      have hlen1 : (({st with
          compiledForPos := st.compiledForPos.set pos true,
          out := st.out ++ [CStmt.label pos]} : CompileStatus)).compiledForPos.length
          = body.iseqSize := by
        simpa using hlen
      have K := compileInsnCore_trans body
        (fun p bb s => compile_insns body f p bb s)
        (fun p bb s hl => ih p bb s hl)
        (body.fetch pos) pos b _ hlen1
      have hiter := compile_iteration_trans body pos
        ((compileInsnCore (fun p bb s => compile_insns body f p bb s) body
          (body.fetch pos) pos b {st with
            compiledForPos := st.compiledForPos.set pos true,
            out := st.out ++ [CStmt.label pos]}).2.1.stackSize)
        st _ _ hpos hunm hlen (Eq.refl _) K
      dsimp only
      split
      · exact hiter.andThen (ih _ _ _ (hiter.len_eq.trans hlen))
      · exact hiter
    · rw [if_neg (by simpa using hg)]
      exact CTrans.here body st

theorem trailingGoto_fuelOut (body : IseqBody) (i : Insn) (n : Nat)
    (st : CompileStatus) : (trailingGoto body i n st).fuelOut = st.fuelOut := by
  unfold trailingGoto; split <;> rfl

theorem compileInsnCore_fuel (body : IseqBody) (f : Nat)
    (ihf : ∀ p bb s, s.compiledForPos.length = body.iseqSize → s.fuelOut = false →
      2 * countFalse s.compiledForPos + 1 ≤ f →
      (compile_insns body f p bb s).fuelOut = false)
    (i : Insn) (pos : Nat) (b : CompileBranch) (st : CompileStatus)
    (hlen : st.compiledForPos.length = body.iseqSize)
    (hfo : st.fuelOut = false)
    (hbud : 2 * countFalse st.compiledForPos + 1 ≤ f) :
    ((compileInsnCore (fun p bb s => compile_insns body f p bb s)
      body i pos b st).1).fuelOut = false := by
  unfold compileInsnCore compileInsnBody
  rcases classify i with off | _ | _ | off | ⟨op, len⟩ | _ <;> dsimp only
  · rw [trailingGoto_fuelOut]
    exact ihf _ _ _ (by simpa using hlen) (by simpa using hfo) (by simpa using hbud)
  · split
    · rw [trailingGoto_fuelOut]
      exact hfo
    · rw [trailingGoto_fuelOut]
      exact hfo
  · rw [trailingGoto_fuelOut]
    exact hfo
  · rw [trailingGoto_fuelOut]
    exact hfo
  · rw [trailingGoto_fuelOut]
    exact hfo
  · rw [trailingGoto_fuelOut]
    exact hfo

/-- from the guard facts, at least one position is unmarked. -/
theorem countFalse_pos (l : List Bool) (p : Nat) (h : p < l.length)
    (hf : l.getD p false = false) : 1 ≤ countFalse l := by
  have := countFalse_set_true l p h hf
  omega

/-- Fuel adequacy: with fuel at least `2 * (number of unmarked positions) + 1`,
`compile_insns` never exhausts its fuel. -/
theorem compile_insns_fuel (body : IseqBody) :
    ∀ (f pos : Nat) (b : CompileBranch) (st : CompileStatus),
      st.compiledForPos.length = body.iseqSize →
      st.fuelOut = false →
      2 * countFalse st.compiledForPos + 1 ≤ f →
      (compile_insns body f pos b st).fuelOut = false := by
  intro f
  induction f with
  | zero => intro pos b st _ _ hbud; omega
  | succ f ih =>
    intro pos b st hlen hfo hbud
    unfold compile_insns
    by_cases hg : loopGuard body pos b st = true
    · rw [if_pos hg]
      have hguard := hg
      unfold loopGuard at hguard
      simp only [Bool.and_eq_true, decide_eq_true_eq, Bool.not_eq_true'] at hguard
      obtain ⟨⟨hpos, hunm⟩, _⟩ := hguard
      have hplen : pos < st.compiledForPos.length := by omega
      have hcount : countFalse (st.compiledForPos.set pos true) + 1
          = countFalse st.compiledForPos := countFalse_set_true _ _ hplen hunm
      have hlen1 : ((st.compiledForPos.set pos true).length) = body.iseqSize := by
        simpa using hlen
      have hfcore := compileInsnCore_fuel body f ih (body.fetch pos) pos b
        {st with compiledForPos := st.compiledForPos.set pos true,
                 out := st.out ++ [CStmt.label pos]}
        hlen1 hfo (by
          have : countFalse (({st with
            compiledForPos := st.compiledForPos.set pos true,
            out := st.out ++ [CStmt.label pos]} : CompileStatus)).compiledForPos
            = countFalse (st.compiledForPos.set pos true) := rfl
          rw [this]
          omega)
      have Kt := compileInsnCore_trans body
        (fun p bb s => compile_insns body f p bb s)
        (fun p bb s hl => compile_insns_trans body f p bb s hl)
        (body.fetch pos) pos b
        {st with compiledForPos := st.compiledForPos.set pos true,
                 out := st.out ++ [CStmt.label pos]}
        hlen1
      dsimp only
      generalize hrdef : compileInsnCore (fun p bb s => compile_insns body f p bb s)
        body (body.fetch pos) pos b
        {st with compiledForPos := st.compiledForPos.set pos true,
                 out := st.out ++ [CStmt.label pos]} = r at hfcore Kt ⊢
      obtain ⟨nK, hnK, hcK, hmK, hdK⟩ := Kt.steps_app
      have hcollapse : (({r.1 with steps := r.1.steps ++ [(pos, r.2.1.stackSize)]} :
          CompileStatus)).compiledForPos = r.1.compiledForPos := rfl
      have hcK2 : countFalse (r.1.compiledForPos) + nK.length
          = countFalse (st.compiledForPos.set pos true) := hcK
      split
      · refine ih _ _ _ ?_ ?_ ?_
        · rw [socheck_compiled, hcollapse]
          exact Kt.len_eq.trans hlen1
        · rw [socheck_fuelOut]
          exact hfcore
        · rw [socheck_compiled, hcollapse]
          omega
      · rw [socheck_fuelOut]
        exact hfcore
    · rw [if_neg (by simpa using hg)]
      exact hfo

/-! ### Emission-only facts (independent of invariants) -/

/-- the emitted text only grows. -/
def OutExt (st st' : CompileStatus) : Prop := ∃ t, st'.out = st.out ++ t

theorem OutExt.nil_ext (st : CompileStatus) : OutExt st st := ⟨[], by simp⟩

theorem OutExt.extendBy {a b c : CompileStatus} (h1 : OutExt a b) (h2 : OutExt b c) :
    OutExt a c := by
  obtain ⟨t1, ht1⟩ := h1
  obtain ⟨t2, ht2⟩ := h2
  exact ⟨t1 ++ t2, by rw [ht2, ht1]; simp⟩

theorem trailingGoto_outExt (body : IseqBody) (i : Insn) (n : Nat)
    (st : CompileStatus) : OutExt st (trailingGoto body i n st) := by
  unfold trailingGoto; split
  · exact ⟨[CStmt.goto n], Eq.refl _⟩
  · exact OutExt.nil_ext st

theorem outExt_emit_trailing (body : IseqBody) (i : Insn) (n : Nat)
    (st : CompileStatus) (l : List CStmt) :
    OutExt st (trailingGoto body i n {st with out := st.out ++ l}) := by
  obtain ⟨t, ht⟩ := trailingGoto_outExt body i n {st with out := st.out ++ l}
  exact ⟨l ++ t, by rw [ht]; simp⟩

theorem compileInsnBody_outExt (body : IseqBody)
    (recur : Nat → CompileBranch → CompileStatus → CompileStatus)
    (hrec : ∀ p bb s, OutExt s (recur p bb s))
    (i : Insn) (pos : Nat) (b : CompileBranch) (st0 : CompileStatus) :
    OutExt st0 (compileInsnBody recur body i pos b st0).1 := by
  unfold compileInsnBody
  rcases classify i with off | _ | _ | off | ⟨op, len⟩ | _ <;> dsimp only
  · refine OutExt.extendBy ?_ (trailingGoto_outExt body _ _ _)
    refine OutExt.extendBy ?_ (hrec _ _ _)
    exact ⟨_, Eq.refl _⟩
  · split
    · refine OutExt.extendBy ?_ (outExt_emit_trailing body _ _ _ _)
      exact ⟨[], by simp⟩
    · exact outExt_emit_trailing body _ _ _ _
  · exact outExt_emit_trailing body _ _ _ _
  · exact outExt_emit_trailing body _ _ _ _
  · refine OutExt.extendBy ?_ (trailingGoto_outExt body _ _ _)
    exact ⟨[], by simp⟩
  · exact outExt_emit_trailing body _ _ _ _

theorem compile_insns_outExt (body : IseqBody) :
    ∀ (f pos : Nat) (b : CompileBranch) (st : CompileStatus),
      OutExt st (compile_insns body f pos b st) := by
  intro f
  induction f with
  | zero =>
    intro pos b st
    unfold compile_insns
    split
    · exact ⟨[], by simp⟩
    · exact OutExt.nil_ext st
  | succ f ih =>
    intro pos b st
    unfold compile_insns
    by_cases hg : loopGuard body pos b st = true
    · rw [if_pos hg]
      have hcore : OutExt st (compileInsnCore
          (fun p bb s => compile_insns body f p bb s) body (body.fetch pos) pos b
          {st with compiledForPos := st.compiledForPos.set pos true,
                   out := st.out ++ [CStmt.label pos]}).1 := by
        unfold compileInsnCore
        have hb := compileInsnBody_outExt body
          (fun p bb s => compile_insns body f p bb s)
          (fun p bb s => ih p bb s) (body.fetch pos) pos b
          {st with compiledForPos := st.compiledForPos.set pos true,
                   out := (st.out ++ [CStmt.label pos]) ++ [CStmt.setPC pos]}
        exact OutExt.extendBy (⟨[CStmt.label pos] ++ [CStmt.setPC pos], by simp⟩ :
          OutExt st {st with
            compiledForPos := st.compiledForPos.set pos true,
            out := (st.out ++ [CStmt.label pos]) ++ [CStmt.setPC pos]}) hb
      dsimp only
      generalize hrdef : compileInsnCore (fun p bb s => compile_insns body f p bb s)
        body (body.fetch pos) pos b
        {st with compiledForPos := st.compiledForPos.set pos true,
                 out := st.out ++ [CStmt.label pos]} = r at hcore ⊢
      have h34 : OutExt r.1 (stackOverflowCheck body pos r.2.1.stackSize
          {r.1 with steps := r.1.steps ++ [(pos, r.2.1.stackSize)]}) :=
        ⟨[], by rw [socheck_out]; simp⟩
      split
      · exact (hcore.extendBy h34).extendBy (ih _ _ _)
      · exact hcore.extendBy h34
    · rw [if_neg (by simpa using hg)]
      exact OutExt.nil_ext st

/-! ### Cancellation-handler semantics -/

def isStackDecl : CStmt → Bool
  | .stackDecl _ => true
  | _ => false

def isCancelLabel : CStmt → Bool
  | .cancelLabel => true
  | _ => false

def isWriteBp : CStmt → Bool
  | .writeBp _ _ => true
  | _ => false

theorem benign_no_stackDecl (s : CStmt) (h : benign s = true) : isStackDecl s = false := by
  cases s <;> simp [benign, isStackDecl] at h ⊢

theorem benign_no_cancelLabel (s : CStmt) (h : benign s = true) :
    isCancelLabel s = false := by
  cases s <;> simp [benign, isCancelLabel] at h ⊢

/-- Effect of a sequence of write-back statements on the
bottom-pointer-relative frame stack (`fr j` is `*((VALUE *)cfp->bp + j)`). -/
def applyWrites : List CStmt → (Nat → Nat) → (Nat → Nat) → (Nat → Nat)
  | [], _, fr => fr
  | .writeBp off idx :: rest, sim, fr =>
      applyWrites rest sim (fun j => if j = off then sim idx else fr j)
  | _ :: rest, sim, fr => applyWrites rest sim fr

/-- Execution of the emitted cancellation block: write-backs update the
frame, `return Qundef;` stops with the second component `true` (the
returned value is the *undefined* sentinel); labels are no-ops. -/
def execCancelStmts : List CStmt → (Nat → Nat) → (Nat → Nat) → ((Nat → Nat) × Bool)
  | [], _, fr => (fr, false)
  | .writeBp off idx :: rest, sim, fr =>
      execCancelStmts rest sim (fun j => if j = off then sim idx else fr j)
  | .returnUndef :: _, _, fr => (fr, true)
  | _ :: rest, sim, fr => execCancelStmts rest sim fr

theorem exec_writes_returnUndef : ∀ (l : List CStmt), l.all isWriteBp = true →
    ∀ (sim fr : Nat → Nat),
    execCancelStmts (l ++ [CStmt.returnUndef]) sim fr = (applyWrites l sim fr, true) := by
  intro l
  induction l with
  | nil => intro _ sim fr; rfl
  | cons a t ih =>
    intro h sim fr
    rw [List.all_cons, Bool.and_eq_true] at h
    obtain ⟨ha, ht⟩ := h
    cases a <;> simp [isWriteBp] at ha
    simp only [List.cons_append, execCancelStmts, applyWrites]
    exact ih ht sim _

theorem applyWrites_append : ∀ (l1 l2 : List CStmt) (sim fr : Nat → Nat),
    applyWrites (l1 ++ l2) sim fr = applyWrites l2 sim (applyWrites l1 sim fr) := by
  intro l1
  induction l1 with
  | nil => intro l2 sim fr; rfl
  | cons a t ih =>
    intro l2 sim fr
    cases a <;> simp only [List.cons_append, applyWrites] <;> exact ih l2 sim _

theorem applyWrites_range : ∀ (n : Nat) (sim fr : Nat → Nat) (j : Nat), j < n →
    applyWrites ((List.range n).map fun k => CStmt.writeBp (k+1) k) sim fr (j+1) = sim j := by
  intro n
  induction n with
  | zero => intro _ _ j hj; omega
  | succ m ih =>
    intro sim fr j hj
    rw [List.range_succ, List.map_append, applyWrites_append]
    simp only [List.map_cons, List.map_nil, applyWrites]
    by_cases hjm : j = m
    · subst hjm; simp
    · have hlt : j < m := by omega
      have hne : j + 1 ≠ m + 1 := by omega
      simp only [hne, if_false]
      exact ih sim fr j hlt

theorem range_writes_all (n : Nat) :
    (((List.range n).map fun k => CStmt.writeBp (k+1) k).all isWriteBp) = true := by
  rw [List.all_eq_true]
  intro a ha
  obtain ⟨k, _, hk⟩ := List.mem_map.1 ha
  rw [← hk]
  rfl

/-! ### Claim theorems for the translator -/

/-- Claim C1: `mjit_compile` returns a cleared success flag exactly when
the translation visited an unsupported instruction, an instruction after
which the simulated stack size exceeded `body->stack_max`, or a `leave`
with simulated stack size different from 1 (the three constructors of
`FailEvent`, recorded exactly where the C code clears
`status->success`); for a body producing none of these events it returns
success. -/
theorem mjit_compile_success_iff_no_failure (body : IseqBody) :
    (mjit_compile body).success = true ↔ (mjit_compile body).events = [] := by
  unfold mjit_compile
  dsimp only
  have K := compile_insns_trans body (2 * body.iseqSize + 1) 0
    {stackSize := 0, finishP := false}
    { success := true,
      compiledForPos := List.replicate body.iseqSize false,
      out := [CStmt.funcHeader]
        ++ (if 0 < body.stackMax then [CStmt.stackDecl body.stackMax] else [])
        ++ (if body.hasOpt then body.optTable.map CStmt.optPrologueCase else []),
      events := [], steps := [], fuelOut := false }
    (by simp)
  exact K.sync ⟨fun _ => rfl, fun _ => rfl⟩

/-- Claim C9 (implicit): `mjit_compile` terminates on every body: the
fuel `2 * iseq_size + 1` supplied to the loop is never exhausted, the
number of `compile_insn` steps across all branches is at most
`body.iseq_size`, and no position is ever compiled twice. -/
theorem mjit_compile_terminates (body : IseqBody) :
    (mjit_compile body).fuelOut = false
    ∧ (mjit_compile body).steps.length ≤ body.iseqSize
    ∧ ((mjit_compile body).steps.map Prod.fst).Nodup := by
  unfold mjit_compile
  dsimp only
  have K := compile_insns_trans body (2 * body.iseqSize + 1) 0
    {stackSize := 0, finishP := false}
    { success := true,
      compiledForPos := List.replicate body.iseqSize false,
      out := [CStmt.funcHeader]
        ++ (if 0 < body.stackMax then [CStmt.stackDecl body.stackMax] else [])
        ++ (if body.hasOpt then body.optTable.map CStmt.optPrologueCase else []),
      events := [], steps := [], fuelOut := false }
    (by simp)
  obtain ⟨n, hn, hc, hm, hd⟩ := K.steps_app
  have hcf : countFalse (List.replicate body.iseqSize false) = body.iseqSize :=
    countFalse_replicate body.iseqSize
  have hfuel := compile_insns_fuel body (2 * body.iseqSize + 1) 0
    {stackSize := 0, finishP := false}
    { success := true,
      compiledForPos := List.replicate body.iseqSize false,
      out := [CStmt.funcHeader]
        ++ (if 0 < body.stackMax then [CStmt.stackDecl body.stackMax] else [])
        ++ (if body.hasOpt then body.optTable.map CStmt.optPrologueCase else []),
      events := [], steps := [], fuelOut := false }
    (by simp) (Eq.refl _) (by dsimp only; omega)
  refine ⟨hfuel, ?_, ?_⟩
  · rw [hn]
    show (List.append [] n).length ≤ body.iseqSize
    have hc' : countFalse _ + n.length = countFalse (List.replicate body.iseqSize false) := hc
    have hl : (List.append [] n).length = n.length := by simp
    omega
  · rw [hn]
    show ((List.append [] n).map Prod.fst).Nodup
    have hl : List.append [] n = n := by simp
    rw [hl]
    exact hd

/-- Claim C7: for every instruction that `compile_insn` compiles, the
emitted C code for that instruction begins with the assignment of the
instruction's address `body->iseq_encoded + pos` into `cfp->pc`, before
any other code emitted for the instruction. -/
theorem compile_insn_pc_write_first (body : IseqBody) (fuel : Nat) (i : Insn)
    (pos : Nat) (b : CompileBranch) (st : CompileStatus) :
    ∃ rest, ((compile_insn body fuel i pos b st).1).out
      = st.out ++ CStmt.setPC pos :: rest := by
  unfold compile_insn compileInsnCore
  obtain ⟨t, ht⟩ := compileInsnBody_outExt body
    (fun p bb s => compile_insns body fuel p bb s)
    (fun p bb s => compile_insns_outExt body fuel p bb s) i pos b
    {st with out := st.out ++ [CStmt.setPC pos]}
  exact ⟨t, by rw [ht]; simp⟩

/-- Claim C8: for a body whose `stack_max` is zero, `mjit_compile` emits
no local stack array declaration, and any instruction leaving the
simulated stack size above zero makes the compilation fail. -/
theorem mjit_compile_zero_stack_max (body : IseqBody) (h : body.stackMax = 0) :
    ((mjit_compile body).out.all (fun s => !(isStackDecl s)) = true)
    ∧ (∀ p sz, (p, sz) ∈ (mjit_compile body).steps → 0 < sz →
        (mjit_compile body).success = false) := by
  unfold mjit_compile
  dsimp only
  have K := compile_insns_trans body (2 * body.iseqSize + 1) 0
    {stackSize := 0, finishP := false}
    { success := true,
      compiledForPos := List.replicate body.iseqSize false,
      out := [CStmt.funcHeader]
        ++ (if 0 < body.stackMax then [CStmt.stackDecl body.stackMax] else [])
        ++ (if body.hasOpt then body.optTable.map CStmt.optPrologueCase else []),
      events := [], steps := [], fuelOut := false }
    (by simp)
  obtain ⟨t, ht, hbt⟩ := K.out_app
  constructor
  · rw [List.all_append, Bool.and_eq_true]
    constructor
    · rw [ht]
      dsimp only
      rw [List.all_append, Bool.and_eq_true]
      constructor
      · rw [h]
        simp only [Nat.lt_irrefl, if_false]
        rw [List.all_eq_true]
        intro a ha
        rcases List.mem_append.1 ha with ha1 | ha2
        · rcases List.mem_append.1 ha1 with ha3 | ha4
          · have : a = CStmt.funcHeader := by simpa using ha3
            subst this; rfl
          · exact absurd ha4 (by simp)
        · split at ha2
          · obtain ⟨off, _, hoff⟩ := List.mem_map.1 ha2
            rw [← hoff]; rfl
          · exact absurd ha2 (by simp)
      · rw [List.all_eq_true]
        intro a ha
        have hb := (List.all_eq_true.1 hbt) a ha
        rw [benign_no_stackDecl a hb]
        rfl
    · unfold compile_cancel_handler
      rw [List.all_eq_true]
      intro a ha
      rcases List.mem_append.1 ha with ha1 | ha2
      · rcases List.mem_append.1 ha1 with ha3 | ha4
        · have : a = CStmt.cancelLabel := by simpa using ha3
          subst this; rfl
        · obtain ⟨k, _, hk⟩ := List.mem_map.1 ha4
          rw [← hk]; rfl
      · have : a = CStmt.returnUndef := by simpa using ha2
        subst this; rfl
  · intro p sz hmem hsz
    have hover := K.over (by intro q hq; exact absurd hq (by simp)) (p, sz) hmem
      (by rw [h]; exact hsz)
    exact hover

/-- concrete witness body for boundary claims: `stack_max = 0`, a
`putnil` whose push makes the simulated stack size exceed it. -/
def zeroStackBody : IseqBody := {
  iseqSize := 2, stackMax := 0,
  fetch := fun p => if p = 0 then .putnil else .leave,
  hasOpt := false, optTable := [] }

theorem mjit_compile_zero_stack_max_witness :
    zeroStackBody.stackMax = 0
    ∧ (((mjit_compile zeroStackBody).out.all (fun s => !(isStackDecl s)) = true)
       ∧ (∀ p sz, (p, sz) ∈ (mjit_compile zeroStackBody).steps → 0 < sz →
           (mjit_compile zeroStackBody).success = false)) :=
  ⟨Eq.refl 0, mjit_compile_zero_stack_max zeroStackBody (Eq.refl 0)⟩

/-- Claim C2: the generated function contains exactly one `cancel:`
label, placed by `compile_cancel_handler`; executing the handler writes
every simulated-stack slot `i < simulated_top` (indeed every
`i < stack_max`) to the bottom-pointer-relative frame position `i + 1`
and returns the *undefined* sentinel, so the frame's operand stack holds
exactly the simulated-stack prefix `0 .. simulated_top - 1`. -/
theorem mjit_compile_cancel_handler (body : IseqBody) (top : Nat)
    (h : top ≤ body.stackMax) (sim fr : Nat → Nat) :
    ((mjit_compile body).out.countP isCancelLabel = 1)
    ∧ (execCancelStmts (compile_cancel_handler body) sim fr).2 = true
    ∧ (∀ i, i < top →
        (execCancelStmts (compile_cancel_handler body) sim fr).1 (i+1) = sim i) := by
  refine ⟨?_, ?_, ?_⟩
  · unfold mjit_compile
    dsimp only
    have K := compile_insns_trans body (2 * body.iseqSize + 1) 0
      {stackSize := 0, finishP := false}
      { success := true,
        compiledForPos := List.replicate body.iseqSize false,
        out := [CStmt.funcHeader]
          ++ (if 0 < body.stackMax then [CStmt.stackDecl body.stackMax] else [])
          ++ (if body.hasOpt then body.optTable.map CStmt.optPrologueCase else []),
        events := [], steps := [], fuelOut := false }
      (by simp)
    obtain ⟨t, ht, hbt⟩ := K.out_app
    rw [List.countP_append, ht]
    dsimp only
    simp only [List.countP_append]
    have h1 : List.countP isCancelLabel [CStmt.funcHeader] = 0 := rfl
    have h2 : List.countP isCancelLabel
        (if 0 < body.stackMax then [CStmt.stackDecl body.stackMax] else []) = 0 := by
      split <;> rfl
    have h3 : List.countP isCancelLabel
        (if body.hasOpt then body.optTable.map CStmt.optPrologueCase else []) = 0 := by
      split
      · rw [List.countP_eq_zero]
        intro a ha
        obtain ⟨off, _, hoff⟩ := List.mem_map.1 ha
        rw [← hoff]
        simp [isCancelLabel]
      · rfl
    have h4 : List.countP isCancelLabel t = 0 := by
      rw [List.countP_eq_zero]
      intro a ha
      have hb := (List.all_eq_true.1 hbt) a ha
      simp [benign_no_cancelLabel a hb]
    have h5 : List.countP isCancelLabel (compile_cancel_handler body) = 1 := by
      unfold compile_cancel_handler
      rw [List.countP_append, List.countP_append]
      have hw : List.countP isCancelLabel
          ((List.range body.stackMax).map fun k => CStmt.writeBp (k+1) k) = 0 := by
        rw [List.countP_eq_zero]
        intro a ha
        obtain ⟨k, _, hk⟩ := List.mem_map.1 ha
        rw [← hk]
        simp [isCancelLabel]
      rw [hw]
      rfl
    omega
  · show (execCancelStmts (CStmt.cancelLabel ::
      (((List.range body.stackMax).map fun k => CStmt.writeBp (k+1) k)
        ++ [CStmt.returnUndef])) sim fr).2 = true
    rw [show execCancelStmts (CStmt.cancelLabel ::
        (((List.range body.stackMax).map fun k => CStmt.writeBp (k+1) k)
          ++ [CStmt.returnUndef])) sim fr
      = execCancelStmts (((List.range body.stackMax).map fun k => CStmt.writeBp (k+1) k)
          ++ [CStmt.returnUndef]) sim fr from rfl]
    rw [exec_writes_returnUndef _ (range_writes_all body.stackMax) sim fr]
  · intro i hi
    show (execCancelStmts (CStmt.cancelLabel ::
      (((List.range body.stackMax).map fun k => CStmt.writeBp (k+1) k)
        ++ [CStmt.returnUndef])) sim fr).1 (i+1) = sim i
    rw [show execCancelStmts (CStmt.cancelLabel ::
        (((List.range body.stackMax).map fun k => CStmt.writeBp (k+1) k)
          ++ [CStmt.returnUndef])) sim fr
      = execCancelStmts (((List.range body.stackMax).map fun k => CStmt.writeBp (k+1) k)
          ++ [CStmt.returnUndef]) sim fr from rfl]
    rw [exec_writes_returnUndef _ (range_writes_all body.stackMax) sim fr]
    exact applyWrites_range body.stackMax sim fr i (by omega)

/-- concrete witness body for the cancellation-handler claim. -/
def cancelWitnessBody : IseqBody := {
  iseqSize := 4, stackMax := 2,
  fetch := fun p => if p = 0 then .putnil else if p = 1 then .putnil else .leave,
  hasOpt := false, optTable := [] }

theorem mjit_compile_cancel_handler_witness :
    1 ≤ cancelWitnessBody.stackMax
    ∧ (((mjit_compile cancelWitnessBody).out.countP isCancelLabel = 1)
        ∧ (execCancelStmts (compile_cancel_handler cancelWitnessBody)
            (fun k => k + 10) (fun _ => 0)).2 = true
        ∧ (∀ i, i < 1 →
            (execCancelStmts (compile_cancel_handler cancelWitnessBody)
              (fun k => k + 10) (fun _ => 0)).1 (i+1) = (fun k => k + 10) i)) :=
  ⟨by decide, mjit_compile_cancel_handler cancelWitnessBody 1 (by decide)
    (fun k => k + 10) (fun _ => 0)⟩

/-! ### Unit queue (`mjit.c`): doubly-linked list of compilation units -/

/-- One `struct rb_mjit_unit`, restricted to the fields the queue
operations read: the `prev`/`next` links and the `iseq` pointer,
collapsed to `some totalCalls` (the `iseq->body->total_calls` counter
read through it) or `none` when the iseq was garbage collected. -/
structure UnitNode where
  prev : Option Nat
  next : Option Nat
  iseq : Option Nat
deriving DecidableEq

/-- The queue state: the heap of unit nodes (indexed by unit identity)
and the `unit_queue` head pointer. -/
structure UnitQueue where
  heap : Nat → UnitNode
  head : Option Nat

def setNext (h : Nat → UnitNode) (x : Nat) (v : Option Nat) : Nat → UnitNode :=
  fun y => if y = x then {h x with next := v} else h y

def setPrev (h : Nat → UnitNode) (x : Nat) (v : Option Nat) : Nat → UnitNode :=
  fun y => if y = x then {h x with prev := v} else h y

/-- `remove_from_unit_queue`: the four-branch pointer surgery of
`mjit.c` (branching on `unit->prev` and `unit->next` being null). -/
def remove_from_unit_queue (q : UnitQueue) (u : Nat) : UnitQueue :=
  match (q.heap u).prev, (q.heap u).next with
  | some p, some s =>
      {q with heap := setPrev (setNext q.heap p (some s)) s (some p)}
  | none, some s =>
      {heap := setPrev q.heap s none, head := some s}
  | some p, none =>
      {q with heap := setNext q.heap p none}
  | none, none =>
      {q with head := none}

/-- head of `l`, or `d` when `l` is empty (the link that follows a list
segment). -/
def headDOpt (l : List Nat) (d : Option Nat) : Option Nat :=
  match l with
  | [] => d
  | a :: _ => some a

/-- last element of `l` as a link, or `d` when `l` is empty. -/
def lastDOpt (l : List Nat) (d : Option Nat) : Option Nat :=
  match l.getLast? with
  | some p => some p
  | none => d

/-- `chainB h pr l nx` — the nodes of `l` are linked consecutively, the
first one's `prev` is `pr`, the last one's `next` is `nx`. -/
def chainB (h : Nat → UnitNode) : Option Nat → List Nat → Option Nat → Bool
  | _, [], _ => true
  | pr, a :: rest, nx =>
      decide ((h a).prev = pr) && decide ((h a).next = headDOpt rest nx)
        && chainB h (some a) rest nx

/-- The queue state represents the list `l` of units, in order. -/
def represents (q : UnitQueue) (l : List Nat) : Prop :=
  q.head = l.head? ∧ chainB q.heap none l none = true ∧ l.Nodup

theorem headDOpt_none (l : List Nat) : headDOpt l none = l.head? := by
  cases l <;> rfl

theorem chainB_congr (h h' : Nat → UnitNode) :
    ∀ (l : List Nat) (pr nx : Option Nat), (∀ a ∈ l, h' a = h a) →
    chainB h' pr l nx = chainB h pr l nx := by
  intro l
  induction l with
  | nil => intro pr nx _; rfl
  | cons a t ih =>
    intro pr nx hagree
    have ha : h' a = h a := hagree a (by simp)
    have ht : ∀ b ∈ t, h' b = h b := fun b hb => hagree b (by simp [hb])
    simp only [chainB, ha, ih (some a) nx ht]

theorem getLast?_cons_ne_none (b : Nat) (tb : List Nat) :
    (b :: tb).getLast? ≠ none := by
  induction tb generalizing b with
  | nil => simp [List.getLast?]
  | cons c tc ih => rw [List.getLast?_cons_cons]; exact ih c

theorem chainB_append (h : Nat → UnitNode) :
    ∀ (l1 l2 : List Nat) (pr nx : Option Nat),
    chainB h pr (l1 ++ l2) nx
      = (chainB h pr l1 (headDOpt l2 nx) && chainB h (lastDOpt l1 pr) l2 nx) := by
  intro l1
  induction l1 with
  | nil =>
    intro l2 pr nx
    simp [chainB, lastDOpt, List.getLast?]
  | cons a t ih =>
    intro l2 pr nx
    simp only [List.cons_append, chainB, List.append_eq]
    rw [ih l2 (some a) nx]
    have hh : headDOpt (t ++ l2) nx = headDOpt t (headDOpt l2 nx) := by
      cases t <;> cases l2 <;> rfl
    have hl : lastDOpt (a :: t) pr = lastDOpt t (some a) := by
      unfold lastDOpt
      cases t with
      | nil => rfl
      | cons b tb =>
        rw [List.getLast?_cons_cons]
        cases hx : (b :: tb).getLast? with
        | none => exact absurd hx (getLast?_cons_ne_none b tb)
        | some p => rfl
    simp only [hh, hl, Bool.and_assoc]

theorem setNext_at (h : Nat → UnitNode) (x : Nat) (v : Option Nat) :
    setNext h x v x = {h x with next := v} := by simp [setNext]

theorem setNext_ne (h : Nat → UnitNode) (x : Nat) (v : Option Nat) (y : Nat)
    (hy : y ≠ x) : setNext h x v y = h y := by simp [setNext, hy]

theorem setPrev_at (h : Nat → UnitNode) (x : Nat) (v : Option Nat) :
    setPrev h x v x = {h x with prev := v} := by simp [setPrev]

theorem setPrev_ne (h : Nat → UnitNode) (x : Nat) (v : Option Nat) (y : Nat)
    (hy : y ≠ x) : setPrev h x v y = h y := by simp [setPrev, hy]

theorem setNext_iseq (h : Nat → UnitNode) (x : Nat) (v : Option Nat) (y : Nat) :
    (setNext h x v y).iseq = (h y).iseq := by
  by_cases hy : y = x
  · subst hy; rw [setNext_at]
  · rw [setNext_ne h x v y hy]

theorem setPrev_iseq (h : Nat → UnitNode) (x : Nat) (v : Option Nat) (y : Nat) :
    (setPrev h x v y).iseq = (h y).iseq := by
  by_cases hy : y = x
  · subst hy; rw [setPrev_at]
  · rw [setPrev_ne h x v y hy]

theorem mem_of_getLast?_eq : ∀ (l : List Nat) (p : Nat), l.getLast? = some p → p ∈ l := by
  intro l
  induction l with
  | nil => intro p h; simp [List.getLast?] at h
  | cons a t ih =>
    intro p h
    cases t with
    | nil =>
      simp [List.getLast?] at h
      simp [h]
    | cons b t' =>
      rw [List.getLast?_cons_cons] at h
      exact List.mem_cons_of_mem a (ih p h)

/-- Retargeting the `next` link of the last node of a chain. -/
theorem chainB_retarget (h h' : Nat → UnitNode) :
    ∀ (l : List Nat) (pr nx nx' : Option Nat) (p : Nat),
    l.getLast? = some p →
    chainB h pr l nx = true →
    l.Nodup →
    (∀ a ∈ l, a ≠ p → h' a = h a) →
    (h' p).prev = (h p).prev →
    (h' p).next = nx' →
    chainB h' pr l nx' = true := by
  intro l
  induction l with
  | nil => intro pr nx nx' p hlast; simp [List.getLast?] at hlast
  | cons a t ih =>
    intro pr nx nx' p hlast hch hnd hagree hprev hnext
    rw [chainB, Bool.and_eq_true, Bool.and_eq_true, decide_eq_true_eq,
        decide_eq_true_eq] at hch
    obtain ⟨⟨hcp, hcn⟩, hct⟩ := hch
    cases t with
    | nil =>
      have hap : a = p := by
        simp [List.getLast?] at hlast
        exact hlast
      subst hap
      rw [chainB]
      simp only [Bool.and_eq_true, decide_eq_true_eq]
      refine ⟨⟨by rw [hprev]; exact hcp, by rw [hnext]; rfl⟩, rfl⟩
    | cons b t' =>
      have hlast' : (b :: t').getLast? = some p := by
        rwa [List.getLast?_cons_cons] at hlast
      have hpmem : p ∈ b :: t' := mem_of_getLast?_eq _ p hlast'
      have hap : a ≠ p := by
        intro he
        subst he
        rw [List.nodup_cons] at hnd
        exact hnd.1 hpmem
      have ha : h' a = h a := hagree a (by simp) hap
      rw [chainB]
      simp only [Bool.and_eq_true, decide_eq_true_eq]
      refine ⟨⟨by rw [ha]; exact hcp, by rw [ha, hcn]; rfl⟩, ?_⟩
      exact ih (some a) nx nx' p hlast' hct (by rw [List.nodup_cons] at hnd; exact hnd.2)
        (fun x hx hxp => hagree x (by simp [hx]) hxp) hprev hnext

/-- Correctness of the pointer surgery of `remove_from_unit_queue`:
removing a unit that is in the represented list yields a queue that
represents the list with that unit erased; the head moves only when the
removed unit was the head; no `iseq` field changes. -/
theorem remove_represents (q : UnitQueue) (l : List Nat) (u : Nat)
    (hrep : represents q l) (hu : u ∈ l) :
    represents (remove_from_unit_queue q u) (l.erase u)
    ∧ ((remove_from_unit_queue q u).head
        = if l.head? = some u then (q.heap u).next else q.head)
    ∧ (∀ v, ((remove_from_unit_queue q u).heap v).iseq = (q.heap v).iseq) := by
  obtain ⟨l1, l2, hdecomp⟩ := List.append_of_mem hu
  subst hdecomp
  obtain ⟨hhead, hchain, hnodup⟩ := hrep
  have hnde : ((l1 ++ u :: l2).erase u).Nodup := hnodup.erase u
  have hnod := List.nodup_append.1 hnodup
  obtain ⟨hnd1, hnd2, hdisj⟩ := hnod
  have hu1 : u ∉ l1 := fun hmem => hdisj hmem (by simp)
  have herase : (l1 ++ u :: l2).erase u = l1 ++ l2 := by
    rw [List.erase_append_right _ hu1, List.erase_cons_head]
  rw [herase] at hnde
  rw [chainB_append, Bool.and_eq_true] at hchain
  obtain ⟨hc1, hc2⟩ := hchain
  have hc1' : chainB q.heap none l1 (some u) = true := by
    have h0 : headDOpt (u :: l2) none = some u := rfl
    rwa [h0] at hc1
  rw [chainB, Bool.and_eq_true, Bool.and_eq_true, decide_eq_true_eq,
      decide_eq_true_eq] at hc2
  obtain ⟨⟨huprev, hunext⟩, hc2t⟩ := hc2
  have hnd2' : (u :: l2).Nodup := hnd2
  rw [List.nodup_cons] at hnd2'
  obtain ⟨hul2, hndl2⟩ := hnd2'
  cases l1 with
  | nil =>
    have hup : (q.heap u).prev = none := by
      rw [huprev]; rfl
    cases l2 with
    | nil =>
      have hun : (q.heap u).next = none := by
        rw [hunext]; rfl
      unfold remove_from_unit_queue
      rw [hup, hun, herase]
      dsimp only
      refine ⟨⟨rfl, rfl, by simp⟩, ?_, fun v => rfl⟩
      rw [if_pos (by rfl)]
    | cons s l2' =>
      have hun : (q.heap u).next = some s := by
        rw [hunext]; rfl
      unfold remove_from_unit_queue
      rw [hup, hun, herase]
      dsimp only
      have hsl2' : s ∉ l2' := by
        rw [List.nodup_cons] at hndl2
        exact hndl2.1
      rw [chainB, Bool.and_eq_true, Bool.and_eq_true, decide_eq_true_eq,
          decide_eq_true_eq] at hc2t
      obtain ⟨⟨hsprev, hsnext⟩, hc2tt⟩ := hc2t
      refine ⟨⟨rfl, ?_, hnde⟩, ?_, ?_⟩
      · show chainB (setPrev q.heap s none) none (s :: l2') none = true
        rw [chainB, Bool.and_eq_true, Bool.and_eq_true, decide_eq_true_eq,
            decide_eq_true_eq]
        refine ⟨⟨by rw [setPrev_at], ?_⟩, ?_⟩
        · rw [setPrev_at]
          show (q.heap s).next = headDOpt l2' none
          exact hsnext
        · rw [chainB_congr (q.heap) (setPrev q.heap s none) l2' (some s) none
            (fun x hx => setPrev_ne q.heap s none x (fun he => hsl2' (he ▸ hx)))]
          exact hc2tt
      · rw [if_pos (by rfl)]
      · intro v
        exact setPrev_iseq q.heap s none v
  | cons a l1'' =>
    have hlast := getLast?_cons_ne_none a l1''
    cases hp : (a :: l1'').getLast? with
    | none => exact absurd hp hlast
    | some p =>
      have hup : (q.heap u).prev = some p := by
        rw [huprev]
        unfold lastDOpt
        rw [hp]
      have hpmem : p ∈ a :: l1'' := mem_of_getLast?_eq _ p hp
      have hpl2 : p ∉ u :: l2 := hdisj hpmem
      have hpu : p ≠ u := fun he => hpl2 (by simp [he])
      have hcond : ¬ ((a :: l1'' ++ u :: l2).head? = some u) := by
        intro he
        have ha : a = u := by simpa using he
        exact hu1 (by simp [ha])
      cases l2 with
      | nil =>
        have hun : (q.heap u).next = none := by
          rw [hunext]; rfl
        unfold remove_from_unit_queue
        rw [hup, hun, herase]
        dsimp only
        refine ⟨⟨by rw [hhead]; rfl, ?_, hnde⟩, ?_, ?_⟩
        · show chainB (setNext q.heap p none) none ((a :: l1'') ++ []) none = true
          rw [chainB_append, Bool.and_eq_true]
          constructor
          · refine chainB_retarget q.heap (setNext q.heap p none) (a :: l1'')
              none (some u) (headDOpt [] none) p hp hc1' hnd1 ?_ ?_ ?_
            · intro x _ hxp
              exact setNext_ne q.heap p none x hxp
            · rw [setNext_at]
            · rw [setNext_at]
              rfl
          · rfl
        · rw [if_neg hcond]
        · intro v
          exact setNext_iseq q.heap p none v
      | cons s l2' =>
        have hun : (q.heap u).next = some s := by
          rw [hunext]; rfl
        unfold remove_from_unit_queue
        rw [hup, hun, herase]
        dsimp only
        have hsmem : s ∈ u :: s :: l2' := by simp
        have hsl1 : s ∉ a :: l1'' := fun hmem => hdisj hmem hsmem
        have hps : p ≠ s := fun he => hsl1 (he ▸ hpmem)
        have hsl2' : s ∉ l2' := by
          rw [List.nodup_cons] at hndl2
          exact hndl2.1
        rw [chainB, Bool.and_eq_true, Bool.and_eq_true, decide_eq_true_eq,
            decide_eq_true_eq] at hc2t
        obtain ⟨⟨hsprev, hsnext⟩, hc2tt⟩ := hc2t
        refine ⟨⟨by rw [hhead]; rfl, ?_, hnde⟩, ?_, ?_⟩
        · show chainB (setPrev (setNext q.heap p (some s)) s (some p)) none
            ((a :: l1'') ++ s :: l2') none = true
          rw [chainB_append, Bool.and_eq_true]
          constructor
          · refine chainB_retarget q.heap
              (setPrev (setNext q.heap p (some s)) s (some p)) (a :: l1'')
              none (some u) (headDOpt (s :: l2') none) p hp hc1' hnd1 ?_ ?_ ?_
            · intro x hx hxp
              rw [setPrev_ne _ s (some p) x (fun he => hsl1 (he ▸ hx)),
                  setNext_ne q.heap p (some s) x hxp]
            · rw [setPrev_ne _ s (some p) p hps, setNext_at]
            · rw [setPrev_ne _ s (some p) p hps, setNext_at]
              rfl
          · show chainB (setPrev (setNext q.heap p (some s)) s (some p))
              (lastDOpt (a :: l1'') none) (s :: l2') none = true
            rw [chainB, Bool.and_eq_true, Bool.and_eq_true, decide_eq_true_eq,
                decide_eq_true_eq]
            refine ⟨⟨?_, ?_⟩, ?_⟩
            · rw [setPrev_at]
              show some p = lastDOpt (a :: l1'') none
              unfold lastDOpt
              rw [hp]
            · rw [setPrev_at]
              show (setNext q.heap p (some s) s).next = headDOpt l2' none
              rw [setNext_ne q.heap p (some s) s (fun he => hps he.symm)]
              exact hsnext
            · rw [chainB_congr (q.heap)
                (setPrev (setNext q.heap p (some s)) s (some p)) l2' (some s) none ?_]
              · exact hc2tt
              · intro x hx
                rw [setPrev_ne _ s (some p) x (fun he => hsl2' (he ▸ hx)),
                    setNext_ne q.heap p (some s) x
                      (fun he => hpl2 (by simp [← he, hx]))]
        · rw [if_neg hcond]
        · intro v
          rw [setPrev_iseq, setNext_iseq]

/-- Claim C10 (implicit): `remove_from_unit_queue(unit)` removes exactly
the given unit from the doubly-linked queue: afterwards the queue
represents the original list with that unit erased (every other unit
still present, in the same relative order — the erased list is a
sublist), and the head changes only when the removed unit was the
head. -/
theorem remove_from_unit_queue_correct (q : UnitQueue) (l : List Nat) (u : Nat)
    (hrep : represents q l) (hu : u ∈ l) :
    represents (remove_from_unit_queue q u) (l.erase u)
    ∧ List.Sublist (l.erase u) l
    ∧ u ∉ l.erase u
    ∧ (∀ v ∈ l, v ≠ u → v ∈ l.erase u)
    ∧ ((remove_from_unit_queue q u).head
        = if l.head? = some u then (q.heap u).next else q.head)
    ∧ (∀ v, ((remove_from_unit_queue q u).heap v).iseq = (q.heap v).iseq) := by
  obtain ⟨hrep', hhead', hiseq'⟩ := remove_represents q l u hrep hu
  refine ⟨hrep', List.erase_sublist u l, ?_, ?_, hhead', hiseq'⟩
  · intro hmem
    have := (List.Nodup.mem_erase_iff hrep.2.2).1 hmem
    exact this.1 rfl
  · intro v hv hvu
    exact (List.mem_erase_of_ne hvu).2 hv

/-- concrete two-unit queue for the removal witness. -/
def removeWitnessQueue : UnitQueue := {
  heap := fun n =>
    if n = 0 then {prev := none, next := some 1, iseq := some 5}
    else if n = 1 then {prev := some 0, next := none, iseq := none}
    else {prev := none, next := none, iseq := none},
  head := some 0 }

theorem remove_from_unit_queue_correct_witness :
    represents removeWitnessQueue [0, 1]
    ∧ (1 ∈ [0, 1])
    ∧ (represents (remove_from_unit_queue removeWitnessQueue 1) ([0, 1].erase 1)
       ∧ List.Sublist ([0, 1].erase 1) [0, 1]
       ∧ 1 ∉ [0, 1].erase 1
       ∧ (∀ v ∈ [0, 1], v ≠ 1 → v ∈ [0, 1].erase 1)
       ∧ ((remove_from_unit_queue removeWitnessQueue 1).head
           = if [0, 1].head? = some 1 then (removeWitnessQueue.heap 1).next
             else removeWitnessQueue.head)
       ∧ (∀ v, ((remove_from_unit_queue removeWitnessQueue 1).heap v).iseq
           = (removeWitnessQueue.heap v).iseq)) :=
  ⟨⟨rfl, rfl, by decide⟩, by decide,
    remove_from_unit_queue_correct removeWitnessQueue [0, 1] 1
      ⟨rfl, rfl, by decide⟩ (by decide)⟩

/-- dereference of `unit->iseq->body->total_calls` (the `none` branch is
never taken on the paths the scan uses it, since the accumulator is only
ever an eligible unit). -/
def callsOf : Option Nat → Nat
  | some c => c
  | none => 0

/-- One step of the scan loop of `get_from_unit_queue`: skip units whose
`iseq` is null; otherwise keep the current candidate unless the new
unit's call count is strictly larger. -/
def scanStep (h : Nat → UnitNode) (best : Option Nat) (u : Nat) : Option Nat :=
  if (h u).iseq = none then best
  else match best with
    | none => some u
    | some d => if callsOf (h d).iseq < callsOf (h u).iseq then some u else some d

/-- The scan loop `for (unit = unit_queue; unit != NULL; unit = unit->next)`,
with fuel bounding the number of followed links. -/
def scanBest (h : Nat → UnitNode) : Nat → Option Nat → Option Nat → Option Nat
  | 0, _, best => best
  | _+1, none, best => best
  | fuel+1, some u, best => scanBest h fuel ((h u).next) (scanStep h best u)

/-- `get_from_unit_queue`: return null on an empty queue; otherwise scan
for the unit with the largest call count (nulls skipped), remove it if
one was found, and return it. -/
def get_from_unit_queue (q : UnitQueue) (fuel : Nat) : Option Nat × UnitQueue :=
  if q.head = none then (none, q)
  else match scanBest q.heap fuel q.head none with
    | none => (none, q)
    | some d => (some d, remove_from_unit_queue q d)

/-- Under `represents`, the pointer-chasing scan visits exactly the
represented list, left to right. -/
theorem scanBest_chain (h : Nat → UnitNode) :
    ∀ (l : List Nat) (pr : Option Nat) (fuel : Nat) (best : Option Nat),
    chainB h pr l none = true → l.length ≤ fuel →
    scanBest h fuel (headDOpt l none) best = List.foldl (scanStep h) best l := by
  intro l
  induction l with
  | nil =>
    intro pr fuel best _ _
    cases fuel <;> rfl
  | cons a t ih =>
    intro pr fuel best hch hlen
    cases fuel with
    | zero => simp at hlen
    | succ f =>
      rw [chainB, Bool.and_eq_true, Bool.and_eq_true, decide_eq_true_eq,
          decide_eq_true_eq] at hch
      obtain ⟨⟨_, hnext⟩, hct⟩ := hch
      show scanBest h (f+1) (some a) best = List.foldl (scanStep h) best (a :: t)
      rw [List.foldl_cons]
      show scanBest h f ((h a).next) (scanStep h best a)
        = List.foldl (scanStep h) (scanStep h best a) t
      rw [hnext]
      exact ih (some a) f (scanStep h best a) hct (by simpa using hlen)

theorem scanStep_cases (h : Nat → UnitNode) (b : Option Nat) (a : Nat)
    (he : ¬ (h a).iseq = none) :
    (b = none ∧ scanStep h b a = some a)
    ∨ (∃ b0, b = some b0 ∧ callsOf (h b0).iseq < callsOf (h a).iseq
        ∧ scanStep h b a = some a)
    ∨ (∃ b0, b = some b0 ∧ ¬ callsOf (h b0).iseq < callsOf (h a).iseq
        ∧ scanStep h b a = some b0) := by
  cases b with
  | none => exact Or.inl ⟨rfl, by unfold scanStep; rw [if_neg he]⟩
  | some b0 =>
    by_cases hlt : callsOf (h b0).iseq < callsOf (h a).iseq
    · refine Or.inr (Or.inl ⟨b0, rfl, hlt, ?_⟩)
      unfold scanStep
      rw [if_neg he]
      dsimp only
      rw [if_pos hlt]
    · refine Or.inr (Or.inr ⟨b0, rfl, hlt, ?_⟩)
      unfold scanStep
      rw [if_neg he]
      dsimp only
      rw [if_neg hlt]

/-- Full characterization of the scan fold: a `none` result means no
eligible unit; a `some d` result is an eligible unit with the maximal
call count, and — unless it was already the accumulator — the earliest
unit of that count in the list. -/
theorem foldl_scanStep_spec (h : Nat → UnitNode) :
    ∀ (l : List Nat) (b : Option Nat),
    (List.foldl (scanStep h) b l = none →
      b = none ∧ ∀ u ∈ l, (h u).iseq = none)
    ∧ (∀ d, List.foldl (scanStep h) b l = some d →
        (∀ u ∈ l, (h u).iseq ≠ none →
          callsOf (h u).iseq ≤ callsOf (h d).iseq)
        ∧ (b = some d ∨ (∃ l1 l2, l = l1 ++ d :: l2 ∧ (h d).iseq ≠ none
            ∧ (∀ bv, b = some bv → callsOf (h bv).iseq < callsOf (h d).iseq)
            ∧ (∀ u ∈ l1, (h u).iseq ≠ none →
                callsOf (h u).iseq < callsOf (h d).iseq)))) := by
  intro l
  induction l with
  | nil =>
    intro b
    constructor
    · intro hres
      exact ⟨hres, by simp⟩
    · intro d hres
      exact ⟨by simp, Or.inl hres⟩
  | cons a t ih =>
    intro b
    have hstep : List.foldl (scanStep h) b (a :: t)
        = List.foldl (scanStep h) (scanStep h b a) t := rfl
    constructor
    · intro hres
      rw [hstep] at hres
      obtain ⟨hb1, hall⟩ := (ih (scanStep h b a)).1 hres
      by_cases he : (h a).iseq = none
      · have hb : scanStep h b a = b := by simp [scanStep, he]
        rw [hb] at hb1
        refine ⟨hb1, ?_⟩
        intro u hu
        rcases List.mem_cons.1 hu with hua | hut
        · subst hua; exact he
        · exact hall u hut
      · exfalso
        rcases scanStep_cases h b a he with ⟨_, hsa⟩ | ⟨b0, _, _, hsa⟩ | ⟨b0, _, _, hsa⟩
          <;> rw [hsa] at hb1 <;> exact Option.noConfusion hb1
    · intro d hres
      rw [hstep] at hres
      obtain ⟨hle, hdisj⟩ := (ih (scanStep h b a)).2 d hres
      by_cases he : (h a).iseq = none
      · have hb : scanStep h b a = b := by simp [scanStep, he]
        rw [hb] at hdisj
        constructor
        · intro u hu hue
          rcases List.mem_cons.1 hu with hua | hut
          · subst hua; exact absurd he hue
          · exact hle u hut hue
        · rcases hdisj with hl | ⟨l1, l2, hdec, helig, hbv, hl1⟩
          · exact Or.inl hl
          · refine Or.inr ⟨a :: l1, l2, by rw [hdec]; rfl, helig, hbv, ?_⟩
            intro u hu hue
            rcases List.mem_cons.1 hu with hua | hut
            · subst hua; exact absurd he hue
            · exact hl1 u hut hue
      · rcases scanStep_cases h b a he with ⟨hbnone, hsa⟩ |
          ⟨b0, hb0, hlt, hsa⟩ | ⟨b0, hb0, hnlt, hsa⟩
        · -- accumulator was empty, a becomes the candidate
          rcases hdisj with hl | ⟨l1, l2, hdec, helig, hbstrict, hl1⟩
          · rw [hsa] at hl
            have had : a = d := by simpa using hl
            subst had
            refine ⟨?_, Or.inr ⟨[], t, by simp, he, ?_, by simp⟩⟩
            · intro u hu hue
              rcases List.mem_cons.1 hu with hua | hut
              · subst hua; exact Nat.le_refl _
              · exact hle u hut hue
            · intro bv hbv
              rw [hbnone] at hbv
              exact Option.noConfusion hbv
          · have had : callsOf (h a).iseq < callsOf (h d).iseq := hbstrict a hsa
            refine ⟨?_, Or.inr ⟨a :: l1, l2, by rw [hdec]; rfl, helig, ?_, ?_⟩⟩
            · intro u hu hue
              rcases List.mem_cons.1 hu with hua | hut
              · subst hua; exact Nat.le_of_lt had
              · exact hle u hut hue
            · intro bv hbv
              rw [hbnone] at hbv
              exact Option.noConfusion hbv
            · intro u hu hue
              rcases List.mem_cons.1 hu with hua | hut
              · subst hua; exact had
              · exact hl1 u hut hue
        · -- a replaced the accumulator b0 (strictly larger count)
          rcases hdisj with hl | ⟨l1, l2, hdec, helig, hbstrict, hl1⟩
          · rw [hsa] at hl
            have had : a = d := by simpa using hl
            refine ⟨?_, Or.inr ⟨[], t, by simp [had], by rw [← had]; exact he, ?_, by simp⟩⟩
            · intro u hu hue
              rcases List.mem_cons.1 hu with hua | hut
              · subst hua; rw [← had]
              · exact hle u hut hue
            · intro bv hbv
              rw [hb0] at hbv
              have hb0v : b0 = bv := by simpa using hbv
              rw [← hb0v, ← had]
              exact hlt
          · have had : callsOf (h a).iseq < callsOf (h d).iseq := hbstrict a hsa
            refine ⟨?_, Or.inr ⟨a :: l1, l2, by rw [hdec]; rfl, helig, ?_, ?_⟩⟩
            · intro u hu hue
              rcases List.mem_cons.1 hu with hua | hut
              · subst hua; exact Nat.le_of_lt had
              · exact hle u hut hue
            · intro bv hbv
              rw [hb0] at hbv
              have hb0v : b0 = bv := by simpa using hbv
              rw [← hb0v]
              exact Nat.lt_trans hlt had
            · intro u hu hue
              rcases List.mem_cons.1 hu with hua | hut
              · subst hua; exact had
              · exact hl1 u hut hue
        · -- the accumulator b0 was kept (calls b0 >= calls a)
          rcases hdisj with hl | ⟨l1, l2, hdec, helig, hbstrict, hl1⟩
          · rw [hsa] at hl
            have hb0d : b0 = d := by simpa using hl
            refine ⟨?_, Or.inl (by rw [hb0, hb0d])⟩
            intro u hu hue
            rcases List.mem_cons.1 hu with hua | hut
            · subst hua
              rw [← hb0d]
              omega
            · exact hle u hut hue
          · have hb0d : callsOf (h b0).iseq < callsOf (h d).iseq := hbstrict b0 hsa
            refine ⟨?_, Or.inr ⟨a :: l1, l2, by rw [hdec]; rfl, helig, ?_, ?_⟩⟩
            · intro u hu hue
              rcases List.mem_cons.1 hu with hua | hut
              · subst hua; omega
              · exact hle u hut hue
            · intro bv hbv
              rw [hb0] at hbv
              have hb0v : b0 = bv := by simpa using hbv
              rw [← hb0v]
              exact hb0d
            · intro u hu hue
              rcases List.mem_cons.1 hu with hua | hut
              · subst hua; omega
              · exact hl1 u hut hue

/-- Witness queue for the dequeue claim: two linked units, the second
one with the larger call count. -/
def dequeueWitnessQueue : UnitQueue :=
  { heap := fun u =>
      if u = 0 then { prev := none, next := some 1, iseq := some 3 }
      else if u = 1 then { prev := some 0, next := none, iseq := some 5 }
      else { prev := none, next := none, iseq := none },
    head := some 0 }

/-- C3: `get_from_unit_queue` returns null and leaves the queue alone
exactly when no unit has a non-null iseq; otherwise it removes and
returns a unit `d` that is eligible, has the maximal call count among
eligible units, and is the earliest such unit in queue order (every
eligible unit strictly before it has a strictly smaller count); the
remaining units stay, in order, and no iseq field changes. -/
theorem get_from_unit_queue_spec (q : UnitQueue) (l : List Nat) (fuel : Nat)
    (hrep : represents q l) (hfuel : l.length ≤ fuel) :
    (∀ r, get_from_unit_queue q fuel = (none, r) →
      r = q ∧ ∀ u ∈ l, (q.heap u).iseq = none)
    ∧ (∀ d r, get_from_unit_queue q fuel = (some d, r) →
        d ∈ l ∧ (q.heap d).iseq ≠ none
        ∧ (∀ u ∈ l, (q.heap u).iseq ≠ none →
            callsOf (q.heap u).iseq ≤ callsOf (q.heap d).iseq)
        ∧ (∃ l1 l2, l = l1 ++ d :: l2
            ∧ ∀ u ∈ l1, (q.heap u).iseq ≠ none →
                callsOf (q.heap u).iseq < callsOf (q.heap d).iseq)
        ∧ represents r (l.erase d)
        ∧ (∀ u ∈ l, u ≠ d → u ∈ l.erase d)
        ∧ (∀ v, (r.heap v).iseq = (q.heap v).iseq)) := by
  obtain ⟨hhead, hchain, hnodup⟩ := hrep
  by_cases hh : q.head = none
  · have hl : l = [] := by
      cases l with
      | nil => rfl
      | cons a t => rw [hhead] at hh; exact Option.noConfusion hh
    subst hl
    constructor
    · intro r hres
      unfold get_from_unit_queue at hres
      rw [if_pos hh] at hres
      exact ⟨(Prod.mk.injEq _ _ _ _ ▸ hres).2.symm, by simp⟩
    · intro d r hres
      unfold get_from_unit_queue at hres
      rw [if_pos hh] at hres
      exact Option.noConfusion (Prod.mk.injEq _ _ _ _ ▸ hres).1
  · have hhd : headDOpt l none = q.head := by rw [headDOpt_none, hhead]
    have hscan : scanBest q.heap fuel q.head none
        = List.foldl (scanStep q.heap) none l := by
      rw [← hhd]
      exact scanBest_chain q.heap l none fuel none hchain hfuel
    have hspec := foldl_scanStep_spec q.heap l none
    constructor
    · intro r hres
      unfold get_from_unit_queue at hres
      rw [if_neg hh, hscan] at hres
      cases hfold : List.foldl (scanStep q.heap) none l with
      | none =>
        rw [hfold] at hres
        exact ⟨(Prod.mk.injEq _ _ _ _ ▸ hres).2.symm, (hspec.1 hfold).2⟩
      | some d =>
        rw [hfold] at hres
        exact Option.noConfusion (Prod.mk.injEq _ _ _ _ ▸ hres).1
    · intro d r hres
      unfold get_from_unit_queue at hres
      rw [if_neg hh, hscan] at hres
      cases hfold : List.foldl (scanStep q.heap) none l with
      | none =>
        rw [hfold] at hres
        exact Option.noConfusion (Prod.mk.injEq _ _ _ _ ▸ hres).1
      | some d0 =>
        rw [hfold] at hres
        obtain ⟨hd0, hr⟩ := Prod.mk.injEq _ _ _ _ ▸ hres
        have hdd0 : d0 = d := Option.some.inj hd0
        subst hdd0
        obtain ⟨hle, hdisj⟩ := hspec.2 d0 hfold
        rcases hdisj with hbad | ⟨l1, l2, hdec, helig, _, hl1⟩
        · exact Option.noConfusion hbad
        have hmem : d0 ∈ l := by rw [hdec]; simp
        obtain ⟨hrepres, _, hiseq⟩ :=
          remove_represents q l d0 ⟨hhead, hchain, hnodup⟩ hmem
        refine ⟨hmem, helig, hle, ⟨l1, l2, hdec, hl1⟩, ?_, ?_, ?_⟩
        · rw [← hr]; exact hrepres
        · intro u hu hne
          exact (List.mem_erase_of_ne hne).2 hu
        · intro v
          rw [← hr]
          exact hiseq v

/-- Concrete run of the dequeue spec on `dequeueWitnessQueue`. -/
theorem get_from_unit_queue_spec_witness :
    represents dequeueWitnessQueue [0, 1] ∧ ([0, 1] : List Nat).length ≤ 2
    ∧ ((∀ r, get_from_unit_queue dequeueWitnessQueue 2 = (none, r) →
        r = dequeueWitnessQueue
        ∧ ∀ u ∈ [0, 1], (dequeueWitnessQueue.heap u).iseq = none)
      ∧ (∀ d r, get_from_unit_queue dequeueWitnessQueue 2 = (some d, r) →
          d ∈ [0, 1] ∧ (dequeueWitnessQueue.heap d).iseq ≠ none
          ∧ (∀ u ∈ [0, 1], (dequeueWitnessQueue.heap u).iseq ≠ none →
              callsOf (dequeueWitnessQueue.heap u).iseq
                ≤ callsOf (dequeueWitnessQueue.heap d).iseq)
          ∧ (∃ l1 l2, [0, 1] = l1 ++ d :: l2
              ∧ ∀ u ∈ l1, (dequeueWitnessQueue.heap u).iseq ≠ none →
                  callsOf (dequeueWitnessQueue.heap u).iseq
                    < callsOf (dequeueWitnessQueue.heap d).iseq)
          ∧ represents r (([0, 1] : List Nat).erase d)
          ∧ (∀ u ∈ [0, 1], u ≠ d → u ∈ ([0, 1] : List Nat).erase d)
          ∧ (∀ v, (r.heap v).iseq = (dequeueWitnessQueue.heap v).iseq))) :=
  ⟨⟨rfl, by decide, by decide⟩, by decide,
    get_from_unit_queue_spec dequeueWitnessQueue [0, 1] 2
      ⟨rfl, by decide, by decide⟩ (by decide)⟩

/-- The two synchronization flags of `mjit.c` guarded by
`mjit_engine_mutex`. -/
structure GcJitState where
  in_jit : Bool
  in_gc : Bool
deriving DecidableEq

/-- The atomic flag transitions of the engine mutex protocol.  Each
constructor is one critical section of `mjit.c`:
`gcStart` is `mjit_gc_start_hook` (the `while (in_jit)` wait means the
assignment `in_gc = TRUE` happens, under the mutex, only in a state with
`in_jit` false); `gcFinish` is `mjit_gc_finish_hook` (`in_gc = FALSE`,
unguarded); `jitStart` is the first critical section of
`convert_unit_to_func` (the `while (in_gc)` wait means `in_jit = TRUE`
happens only with `in_gc` false); `jitFinish` is its second critical
section (`in_jit = FALSE`, unguarded). -/
inductive GcJitStep : GcJitState → GcJitState → Prop
  | gcStart (s : GcJitState) : s.in_jit = false →
      GcJitStep s { s with in_gc := true }
  | gcFinish (s : GcJitState) : GcJitStep s { s with in_gc := false }
  | jitStart (s : GcJitState) : s.in_gc = false →
      GcJitStep s { s with in_jit := true }
  | jitFinish (s : GcJitState) : GcJitStep s { s with in_jit := false }

/-- Initial state: both flags start as FALSE (static initializers). -/
def gcJitInit : GcJitState := { in_jit := false, in_gc := false }

/-- A state of the flag protocol reachable by any interleaving of the
client (GC hooks) and the worker. -/
def GcJitReachable (s : GcJitState) : Prop :=
  Relation.ReflTransGen GcJitStep gcJitInit s

/-- C4: in every reachable interleaving of the worker and the GC hooks,
`in_jit` and `in_gc` are never simultaneously true. -/
theorem mjit_gc_jit_mutual_exclusion (s : GcJitState)
    (h : GcJitReachable s) : ¬ (s.in_jit = true ∧ s.in_gc = true) := by
  induction h with
  | refl => simp [gcJitInit]
  | tail _ hbc ih =>
    cases hbc with
    | gcStart hg => simp [hg]
    | gcFinish => simp
    | jitStart hg => simp [hg]
    | jitFinish => simp

/-- Concrete reachable state with the worker inside a compile batch. -/
theorem mjit_gc_jit_mutual_exclusion_witness :
    GcJitReachable { in_jit := true, in_gc := false }
    ∧ ¬ (({ in_jit := true, in_gc := false } : GcJitState).in_jit = true
        ∧ ({ in_jit := true, in_gc := false } : GcJitState).in_gc = true) :=
  ⟨Relation.ReflTransGen.single (GcJitStep.jitStart gcJitInit rfl),
    mjit_gc_jit_mutual_exclusion _
      (Relation.ReflTransGen.single (GcJitStep.jitStart gcJitInit rfl))⟩

/-- Control locations of the worker's main loop in `mjit.c`:
`top` = the `while (!finish_worker_p)` test, `wait` = the inner
`while (unit_queue == NULL && !finish_worker_p)` wait, `deq` = about to
call `get_from_unit_queue`, `proc` = processing the dequeued unit,
`fin` = about to set `worker_finished`, `done` = returned. -/
inductive WLoc where
  | top
  | wait
  | deq
  | proc
  | fin
  | done
deriving DecidableEq

/-- Shared state of the worker loop, abstracted: `queue` is the number
of enqueued units, `deqAfterFinish` is a ghost counter of
`get_from_unit_queue` calls made while `finish` was already set. -/
structure WorkerState where
  loc : WLoc
  finish : Bool
  workerFinished : Bool
  queue : Nat
  deqAfterFinish : Nat
deriving DecidableEq

/-- Interleaved small steps of the worker thread and its environment.
Worker steps follow the loop of `worker()`: the top test branches on
`finish_worker_p`; the inner wait is left once the queue is non-empty or
finish is requested; `get_from_unit_queue` is then called
unconditionally; after processing, control returns to the top test; on
exit `worker_finished = TRUE` is set.  Environment steps are the
client's `add_to_unit_queue` and `mjit_finish`'s
`finish_worker_p = TRUE` (the flag is never reset). -/
inductive WorkerStep : WorkerState → WorkerState → Prop
  | topExit (s : WorkerState) : s.loc = WLoc.top → s.finish = true →
      WorkerStep s { s with loc := WLoc.fin }
  | topEnter (s : WorkerState) : s.loc = WLoc.top → s.finish = false →
      WorkerStep s { s with loc := WLoc.wait }
  | waitExit (s : WorkerState) : s.loc = WLoc.wait →
      (s.queue ≠ 0 ∨ s.finish = true) →
      WorkerStep s { s with loc := WLoc.deq }
  | dequeue (s : WorkerState) : s.loc = WLoc.deq →
      WorkerStep s
        { s with
          loc := WLoc.proc
          queue := s.queue - 1
          deqAfterFinish := s.deqAfterFinish + (if s.finish then 1 else 0) }
  | processed (s : WorkerState) : s.loc = WLoc.proc →
      WorkerStep s { s with loc := WLoc.top }
  | finished (s : WorkerState) : s.loc = WLoc.fin →
      WorkerStep s { s with loc := WLoc.done, workerFinished := true }
  | enqueue (s : WorkerState) :
      WorkerStep s { s with queue := s.queue + 1 }
  | setFinish (s : WorkerState) :
      WorkerStep s { s with finish := true }

/-- Worker start state: at the loop top, nothing queued, no flags. -/
def workerInit : WorkerState :=
  { loc := WLoc.top, finish := false, workerFinished := false,
    queue := 0, deqAfterFinish := 0 }

def WorkerReachable (s : WorkerState) : Prop :=
  Relation.ReflTransGen WorkerStep workerInit s

/-- Inductive invariant for the worker loop: at most one dequeue call
after finish is requested; such a call implies finish is set; while the
worker is still at the wait or at the dequeue with finish set, that call
has not yet happened; reaching `done` means `worker_finished` was set. -/
def WorkerInv (s : WorkerState) : Prop :=
  s.deqAfterFinish ≤ 1
  ∧ (s.deqAfterFinish = 1 → s.finish = true)
  ∧ (s.finish = true → (s.loc = WLoc.wait ∨ s.loc = WLoc.deq) →
      s.deqAfterFinish = 0)
  ∧ (s.loc = WLoc.done → s.workerFinished = true)

theorem workerInv_step (a b : WorkerState) (hab : WorkerStep a b)
    (ha : WorkerInv a) : WorkerInv b := by
  obtain ⟨h1, h2, h3, h4⟩ := ha
  cases hab with
  | topExit hl hf =>
    refine ⟨h1, h2, fun _ hl' => ?_, fun hl' => ?_⟩
    · rcases hl' with h | h <;> simp at h
    · simp at hl'
  | topEnter hl hf =>
    refine ⟨h1, h2, fun hfin _ => absurd hfin (by simp [hf]),
      fun hl' => by simp at hl'⟩
  | waitExit hl hg =>
    refine ⟨h1, h2, fun hfin _ => h3 hfin (Or.inl hl),
      fun hl' => by simp at hl'⟩
  | dequeue hl =>
    by_cases hfin : a.finish = true
    · have hz := h3 hfin (Or.inr hl)
      refine ⟨?_, fun _ => hfin, fun _ hl' => ?_, fun hl' => by simp at hl'⟩
      · show a.deqAfterFinish + (if a.finish then 1 else 0) ≤ 1
        rw [hz, if_pos hfin]
      · rcases hl' with h | h <;> simp at h
    · have hf0 : a.finish = false := by
        revert hfin; cases a.finish <;> simp
      refine ⟨?_, ?_, fun hfin' _ => absurd hfin' (by simp [hf0]),
        fun hl' => by simp at hl'⟩
      · show a.deqAfterFinish + (if a.finish then 1 else 0) ≤ 1
        rw [hf0]
        simpa using h1
      · intro hd
        have hd' : a.deqAfterFinish + (if a.finish then 1 else 0) = 1 := hd
        rw [hf0] at hd'
        exact h2 (by simpa using hd')
  | processed hl =>
    refine ⟨h1, h2, fun _ hl' => ?_, fun hl' => by simp at hl'⟩
    rcases hl' with h | h <;> simp at h
  | finished hl =>
    refine ⟨h1, h2, fun _ hl' => ?_, fun _ => rfl⟩
    rcases hl' with h | h <;> simp at h
  | enqueue =>
    exact ⟨h1, h2, fun hfin hl' => h3 hfin hl', h4⟩
  | setFinish =>
    refine ⟨h1, fun _ => rfl, fun _ hl' => ?_, h4⟩
    by_cases hfin : a.finish = true
    · exact h3 hfin hl'
    · have hne : a.deqAfterFinish ≠ 1 := fun hd => hfin (h2 hd)
      show a.deqAfterFinish = 0
      omega

theorem workerInv_reachable (s : WorkerState) (h : WorkerReachable s) :
    WorkerInv s := by
  induction h with
  | refl => exact ⟨by decide, by decide, by decide, by decide⟩
  | tail _ hbc ih => exact workerInv_step _ _ hbc ih

/-- Counterexample to the literal claim: a reachable state in which the
worker has called `get_from_unit_queue` after `finish_worker_p` was
already set.  Scenario: the worker enters the inner wait, the client
enqueues a unit, `mjit_finish` sets the flag, the worker wakes up —
the inner wait exits on `unit_queue != NULL || finish_worker_p` — and
the unconditional `get_from_unit_queue()` call consults the queue. -/
theorem worker_dequeue_after_finish_reachable :
    WorkerReachable
      { loc := WLoc.proc, finish := true, workerFinished := false,
        queue := 0, deqAfterFinish := 1 }
    ∧ ({ loc := WLoc.proc, finish := true, workerFinished := false,
         queue := 0, deqAfterFinish := 1 } : WorkerState).deqAfterFinish
        = 1 := by
  refine ⟨?_, rfl⟩
  have t1 : WorkerReachable
      { loc := WLoc.wait, finish := false, workerFinished := false,
        queue := 0, deqAfterFinish := 0 } :=
    Relation.ReflTransGen.single (WorkerStep.topEnter workerInit rfl rfl)
  have t2 : WorkerReachable
      { loc := WLoc.wait, finish := false, workerFinished := false,
        queue := 1, deqAfterFinish := 0 } :=
    t1.tail (WorkerStep.enqueue _)
  have t3 : WorkerReachable
      { loc := WLoc.wait, finish := true, workerFinished := false,
        queue := 1, deqAfterFinish := 0 } :=
    t2.tail (WorkerStep.setFinish _)
  have t4 : WorkerReachable
      { loc := WLoc.deq, finish := true, workerFinished := false,
        queue := 1, deqAfterFinish := 0 } :=
    t3.tail (WorkerStep.waitExit _ rfl (Or.inl (by decide)))
  exact t4.tail (WorkerStep.dequeue _ rfl)

/-- C5 (amended): once `finish_worker_p` is set, the worker consults the
unit queue at most one more time — in every reachable state the number
of `get_from_unit_queue` calls made after finish was requested is at
most one — and when the worker exits its loop it has set
`worker_finished`. -/
theorem worker_finish_bounded (s : WorkerState) (h : WorkerReachable s) :
    s.deqAfterFinish ≤ 1
    ∧ (s.loc = WLoc.done → s.workerFinished = true) := by
  have hinv := workerInv_reachable s h
  exact ⟨hinv.1, hinv.2.2.2⟩

/-- Concrete run of the amended worker bound at the initial state. -/
theorem worker_finish_bounded_witness :
    WorkerReachable workerInit
    ∧ workerInit.deqAfterFinish ≤ 1
    ∧ (workerInit.loc = WLoc.done → workerInit.workerFinished = true) :=
  ⟨Relation.ReflTransGen.refl,
    (worker_finish_bounded workerInit Relation.ReflTransGen.refl).1,
    (worker_finish_bounded workerInit Relation.ReflTransGen.refl).2⟩

/-- A value stored into `body->jit_func`: one of the distinct sentinel
constants of `enum rb_mjit_iseq_func`, or a real function pointer (the
raw result of `dlsym`). -/
inductive JitFunc where
  | notAdded
  | notReady
  | notCompilable
  | fptr (addr : Nat)
deriving DecidableEq

/-- `load_func_from_so`: on `dlopen` failure, print the "failure in
loading code" warning when `mjit_opts.warnings || mjit_opts.verbose`
and return `NOT_ADDED_JIT_ISEQ_FUNC`; otherwise return whatever `dlsym`
yields, unchecked.  The second component records whether the diagnostic
was emitted. -/
def load_func_from_so (dlopenOk : Bool) (dlsymRes : JitFunc)
    (warnings verbose : Bool) : JitFunc × Bool :=
  if dlopenOk then (dlsymRes, false)
  else (JitFunc.notAdded, warnings || verbose)

/-- The failure chain of `convert_unit_to_func`: a translator
(`mjit_compile`) failure or a C-compiler (`compile_c_to_so`) failure
returns `NOT_COMPILABLE_JIT_ISEQ_FUNC`; only then is the shared object
loaded. -/
def convert_unit_to_func (translateOk compileOk dlopenOk : Bool)
    (dlsymRes : JitFunc) (warnings verbose : Bool) : JitFunc × Bool :=
  if translateOk then
    if compileOk then load_func_from_so dlopenOk dlsymRes warnings verbose
    else (JitFunc.notCompilable, false)
  else (JitFunc.notCompilable, false)

/-- Counterexample to the literal claim: a `dlopen` failure stores
`NOT_ADDED_JIT_ISEQ_FUNC` — a sentinel distinct from
`NOT_COMPILABLE_JIT_ISEQ_FUNC` — into the entry slot, both when called
directly and through `convert_unit_to_func`. -/
theorem load_failure_not_compilable_counterexample :
    (load_func_from_so false JitFunc.notReady true false).1
      = JitFunc.notAdded
    ∧ (load_func_from_so false JitFunc.notReady true false).1
        ≠ JitFunc.notCompilable
    ∧ (convert_unit_to_func true true false JitFunc.notReady true false).1
        = JitFunc.notAdded := by
  exact ⟨rfl, by decide, rfl⟩

/-- C6 (amended): a shared-object load failure stores the not-added
sentinel (so the body may be enqueued again), with the diagnostic
emitted exactly when warnings or verbose is set; it is the translator
and C-compiler failures that store the not-compilable sentinel.  The
`dlsym` result is stored unchecked, with no diagnostic. -/
theorem load_failure_sets_not_added (dlsymRes : JitFunc) (w v : Bool) :
    (load_func_from_so false dlsymRes w v).1 = JitFunc.notAdded
    ∧ (load_func_from_so false dlsymRes w v).2 = (w || v)
    ∧ (∀ cOk dOk, (convert_unit_to_func false cOk dOk dlsymRes w v).1
        = JitFunc.notCompilable)
    ∧ (∀ dOk, (convert_unit_to_func true false dOk dlsymRes w v).1
        = JitFunc.notCompilable)
    ∧ (convert_unit_to_func true true false dlsymRes w v).1
        = JitFunc.notAdded
    ∧ (load_func_from_so true dlsymRes w v) = (dlsymRes, false) :=
  ⟨rfl, rfl, fun _ _ => rfl, fun _ => rfl, rfl, rfl⟩
